import Mathlib

/-!
Verification of the meta-mystia-manager core against its specification.

The Rust sources are shallowly embedded: strings are lists of characters,
filesystem and network effects are passed in explicitly as environment
records (the outcome each `std::fs` / HTTP call would have), and every
fallible operation returns an explicit result value.  Each definition is
translated from the corresponding function in `src/`.
-/

namespace MetaMystia

/-- Rust strings are modelled as lists of characters. -/
abbrev RStr := List Char

/-- Model of Rust `char::is_whitespace` restricted to the ASCII whitespace
characters that actually occur in the manager's inputs. -/
def isRustWhitespace (c : Char) : Bool :=
  c = ' ' || c = '\t' || c = '\n' || c = '\r'

/-- Model of Rust `str::trim`: drop whitespace from both ends. -/
def trimChars (cs : RStr) : RStr :=
  ((cs.dropWhile isRustWhitespace).reverse.dropWhile isRustWhitespace).reverse

/-- Model of Rust `str::split(sep)`: always yields at least one piece, and
an empty piece between two adjacent separators or at either end. -/
def splitChar (sep : Char) : RStr → List RStr
  | [] => [[]]
  | c :: cs =>
    let r := splitChar sep cs
    if c = sep then [] :: r
    else
      match r with
      | h :: t => (c :: h) :: t
      | [] => [[c]]

/-- Model of Rust `Result`. -/
inductive RResult (ε : Type) (α : Type) where
  | ok (value : α)
  | error (err : ε)
deriving DecidableEq, Repr

/-- `std::io::ErrorKind`, restricted to the kinds the deletion engine
distinguishes. -/
inductive ErrorKind where
  | permissionDenied
  | notFound
  | otherKind
deriving DecidableEq, Repr

/-- A `std::io::Error`: its kind, its optional raw OS error code, and its
display text. -/
structure IoError where
  kind : ErrorKind
  rawOsError : Option Int
  msg : RStr
deriving DecidableEq, Repr

/-- The constructors of `ManagerError` (src/error.rs) that the verified
functions produce.  `io` stands for `ManagerError::Io`. -/
inductive ManagerError where
  | permissionDenied (path : RStr)
  | fileInUse (path : RStr)
  | extractFailed (msg : RStr)
  | invalidVersionInfo
  | io (kind : ErrorKind) (msg : RStr)
  | other (msg : RStr)
deriving DecidableEq, Repr

/-- `ERROR_SHARING_VIOLATION` (src/file_ops.rs line 28). -/
def ERROR_SHARING_VIOLATION : Int := 32

/-- `map_io_error_to_uninstall_error` (src/file_ops.rs lines 31-40): on
Windows, raw OS code 32 becomes `FileInUse`; everything else is rewrapped
as an IO error with the same kind and text. -/
def map_io_error_to_uninstall_error (isWindows : Bool) (err : IoError)
    (path : RStr) : ManagerError :=
  match err.rawOsError with
  | some code =>
    if isWindows && code == ERROR_SHARING_VIOLATION then
      ManagerError.fileInUse path
    else
      ManagerError.io err.kind err.msg
  | none => ManagerError.io err.kind err.msg

/-- `DeletionStatus` (src/file_ops.rs lines 184-188). -/
inductive DeletionStatus where
  | success
  | failed (err : ManagerError)
  | skipped
deriving DecidableEq, Repr

/-- `DeletionResult` (src/file_ops.rs lines 190-194). -/
structure DeletionResult where
  path : RStr
  status : DeletionStatus
deriving DecidableEq, Repr

/-- The filesystem's behaviour towards one `delete_file` /
`delete_directory` call: whether the path exists at entry, the outcome of
the first remove call (`none` = success), whether the path still exists
after a successful remove, whether reading the metadata succeeds, and
whether the retry after clearing the read-only bit succeeds. -/
structure DeleteEnv where
  exists0 : Bool
  removeRes : Option IoError
  existsAfter : Bool
  metadataOk : Bool
  retryOk : Bool
deriving DecidableEq, Repr

/-- Message of the `Failed(Other)` produced when a file still exists after
a successful delete (src/file_ops.rs line 280). -/
def stillExistsFileMsg : RStr := "执行删除后文件仍存在".data

/-- Message of the `Failed(Other)` produced when a directory still exists
after a successful delete (src/file_ops.rs line 351). -/
def stillExistsDirMsg : RStr := "执行删除后文件夹仍存在".data

/-- Shared failure classification of `delete_file` / `delete_directory`
(the two functions differ only in the remove call and the race message):
translated from src/file_ops.rs lines 266-334 and 337-405. -/
def deleteClassify (isWindows : Bool) (path : RStr) (env : DeleteEnv)
    (raceMsg : RStr) : DeletionResult :=
  if env.exists0 = false then
    { path := path, status := DeletionStatus.skipped }
  else
    match env.removeRes with
    | none =>
      if env.existsAfter then
        { path := path
          status := DeletionStatus.failed (ManagerError.other raceMsg) }
      else
        { path := path, status := DeletionStatus.success }
    | some e =>
      match map_io_error_to_uninstall_error isWindows e path with
      | ManagerError.fileInUse _ =>
        { path := path
          status := DeletionStatus.failed (ManagerError.fileInUse path) }
      | _ =>
        if e.kind = ErrorKind.permissionDenied ∧ env.metadataOk = true
            ∧ env.retryOk = true then
          { path := path, status := DeletionStatus.success }
        else
          match e.kind with
          | ErrorKind.permissionDenied =>
            { path := path
              status :=
                DeletionStatus.failed (ManagerError.permissionDenied path) }
          | ErrorKind.notFound =>
            { path := path, status := DeletionStatus.skipped }
          | ErrorKind.otherKind =>
            { path := path
              status :=
                DeletionStatus.failed
                  (map_io_error_to_uninstall_error isWindows e path) }

/-- `delete_file` (src/file_ops.rs lines 266-334). -/
def delete_file (isWindows : Bool) (path : RStr) (env : DeleteEnv) :
    DeletionResult :=
  deleteClassify isWindows path env stillExistsFileMsg

/-- `delete_directory` (src/file_ops.rs lines 337-405). -/
def delete_directory (isWindows : Bool) (path : RStr) (env : DeleteEnv) :
    DeletionResult :=
  deleteClassify isWindows path env stillExistsDirMsg

/-- One input to `execute_deletion`: the path, whether `Path::is_dir`
holds for it at call time, and the filesystem's behaviour towards its
deletion. -/
structure DeletionItem where
  path : RStr
  isDir : Bool
  env : DeleteEnv
deriving DecidableEq, Repr

/-- `execute_deletion` (src/file_ops.rs lines 232-263): per path, in input
order, delete as directory or file depending on `is_dir` at call time;
the UI progress calls return unit, so no outcome stops the loop. -/
def execute_deletion (isWindows : Bool) (items : List DeletionItem) :
    List DeletionResult :=
  items.map fun it =>
    if it.isDir then delete_directory isWindows it.path it.env
    else delete_file isWindows it.path it.env

/-- Whether an IO error maps to `FileInUse` (Windows sharing violation). -/
def isSharingViolation (isWindows : Bool) (e : IoError) : Bool :=
  match e.rawOsError with
  | some code => isWindows && code == ERROR_SHARING_VIOLATION
  | none => false

theorem mapIoError_fileInUse_iff (isWindows : Bool) (e : IoError) (path : RStr) :
    map_io_error_to_uninstall_error isWindows e path = ManagerError.fileInUse path
      ↔ isSharingViolation isWindows e = true := by
  unfold map_io_error_to_uninstall_error isSharingViolation
  cases e.rawOsError with
  | none => simp
  | some code =>
    by_cases h : (isWindows && code == ERROR_SHARING_VIOLATION) = true <;>
      simp [h]

theorem deleteClassify_path (isWindows : Bool) (path : RStr) (env : DeleteEnv)
    (raceMsg : RStr) :
    (deleteClassify isWindows path env raceMsg).path = path := by
  unfold deleteClassify
  repeat first
  | rfl
  | split

theorem mapIoError_not_fileInUse (isWindows : Bool) (e : IoError) (path : RStr)
    (h : isSharingViolation isWindows e = false) :
    map_io_error_to_uninstall_error isWindows e path
      = ManagerError.io e.kind e.msg := by
  unfold isSharingViolation at h
  cases hr : e.rawOsError with
  | none => simp [map_io_error_to_uninstall_error, hr]
  | some code =>
    rw [hr] at h
    simp only [] at h
    simp [map_io_error_to_uninstall_error, hr, h]

theorem deleteClassify_notExists (isWindows : Bool) (path : RStr)
    (env : DeleteEnv) (m : RStr) (h : env.exists0 = false) :
    deleteClassify isWindows path env m
      = { path := path, status := DeletionStatus.skipped } := by
  unfold deleteClassify
  simp [h]

theorem deleteClassify_removed_still (isWindows : Bool) (path : RStr)
    (env : DeleteEnv) (m : RStr) (h0 : env.exists0 = true)
    (hr : env.removeRes = none) (ha : env.existsAfter = true) :
    deleteClassify isWindows path env m
      = { path := path
          status := DeletionStatus.failed (ManagerError.other m) } := by
  unfold deleteClassify
  simp [h0, hr, ha]

theorem deleteClassify_removed_gone (isWindows : Bool) (path : RStr)
    (env : DeleteEnv) (m : RStr) (h0 : env.exists0 = true)
    (hr : env.removeRes = none) (ha : env.existsAfter = false) :
    deleteClassify isWindows path env m
      = { path := path, status := DeletionStatus.success } := by
  unfold deleteClassify
  simp [h0, hr, ha]

theorem deleteClassify_sharing (isWindows : Bool) (path : RStr)
    (env : DeleteEnv) (m : RStr) (e : IoError) (h0 : env.exists0 = true)
    (hr : env.removeRes = some e) (hs : isSharingViolation isWindows e = true) :
    deleteClassify isWindows path env m
      = { path := path
          status := DeletionStatus.failed (ManagerError.fileInUse path) } := by
  have hmap := (mapIoError_fileInUse_iff isWindows e path).2 hs
  simp [deleteClassify, h0, hr, hmap]

theorem deleteClassify_perm_retry_ok (isWindows : Bool) (path : RStr)
    (env : DeleteEnv) (m : RStr) (e : IoError) (h0 : env.exists0 = true)
    (hr : env.removeRes = some e) (hs : isSharingViolation isWindows e = false)
    (hk : e.kind = ErrorKind.permissionDenied) (hm : env.metadataOk = true)
    (hret : env.retryOk = true) :
    deleteClassify isWindows path env m
      = { path := path, status := DeletionStatus.success } := by
  have hmap := mapIoError_not_fileInUse isWindows e path hs
  simp [deleteClassify, h0, hr, hmap, hk, hm, hret]

theorem deleteClassify_perm_retry_fails (isWindows : Bool) (path : RStr)
    (env : DeleteEnv) (m : RStr) (e : IoError) (h0 : env.exists0 = true)
    (hr : env.removeRes = some e) (hs : isSharingViolation isWindows e = false)
    (hk : e.kind = ErrorKind.permissionDenied)
    (hret : env.metadataOk = false ∨ env.retryOk = false) :
    deleteClassify isWindows path env m
      = { path := path
          status :=
            DeletionStatus.failed (ManagerError.permissionDenied path) } := by
  have hmap := mapIoError_not_fileInUse isWindows e path hs
  rcases hret with h | h <;> simp [deleteClassify, h0, hr, hmap, hk, h]

theorem deleteClassify_race_notFound (isWindows : Bool) (path : RStr)
    (env : DeleteEnv) (m : RStr) (e : IoError) (h0 : env.exists0 = true)
    (hr : env.removeRes = some e) (hs : isSharingViolation isWindows e = false)
    (hk : e.kind = ErrorKind.notFound) :
    deleteClassify isWindows path env m
      = { path := path, status := DeletionStatus.skipped } := by
  have hmap := mapIoError_not_fileInUse isWindows e path hs
  simp [deleteClassify, h0, hr, hmap, hk]

theorem deleteClassify_other_failure (isWindows : Bool) (path : RStr)
    (env : DeleteEnv) (m : RStr) (e : IoError) (h0 : env.exists0 = true)
    (hr : env.removeRes = some e) (hs : isSharingViolation isWindows e = false)
    (hk : e.kind = ErrorKind.otherKind) :
    deleteClassify isWindows path env m
      = { path := path
          status :=
            DeletionStatus.failed (ManagerError.io e.kind e.msg) } := by
  have hmap := mapIoError_not_fileInUse isWindows e path hs
  simp [deleteClassify, h0, hr, hmap, hk]

/-- Claim C2: `delete_file` and `delete_directory` implement exactly the
per-item classification state machine of the spec: nonexistent path →
Skipped; delete reported success but path remains → Failed(Other); delete
succeeded and path gone → Success; permission denied → one chmod-and-retry
attempt, Success if the retry deletes, else Failed(PermissionDenied); a
platform sharing-violation code → Failed(FileInUse); NotFound during the
delete (race) → Skipped; anything else → Failed(Other-detail), here the
rewrapped IO error. -/
theorem deletion_engine_state_machine (isWindows : Bool) (p : RStr)
    (env : DeleteEnv) :
    (env.exists0 = false →
      delete_file isWindows p env
        = { path := p, status := DeletionStatus.skipped }
      ∧ delete_directory isWindows p env
        = { path := p, status := DeletionStatus.skipped })
    ∧ (env.exists0 = true → env.removeRes = none → env.existsAfter = true →
      delete_file isWindows p env
        = { path := p
            status :=
              DeletionStatus.failed (ManagerError.other stillExistsFileMsg) }
      ∧ delete_directory isWindows p env
        = { path := p
            status :=
              DeletionStatus.failed (ManagerError.other stillExistsDirMsg) })
    ∧ (env.exists0 = true → env.removeRes = none → env.existsAfter = false →
      delete_file isWindows p env
        = { path := p, status := DeletionStatus.success }
      ∧ delete_directory isWindows p env
        = { path := p, status := DeletionStatus.success })
    ∧ (∀ e : IoError, env.exists0 = true → env.removeRes = some e →
      (isSharingViolation isWindows e = true →
        delete_file isWindows p env
          = { path := p
              status := DeletionStatus.failed (ManagerError.fileInUse p) }
        ∧ delete_directory isWindows p env
          = { path := p
              status := DeletionStatus.failed (ManagerError.fileInUse p) })
      ∧ (isSharingViolation isWindows e = false →
        (e.kind = ErrorKind.permissionDenied →
          (env.metadataOk = true → env.retryOk = true →
            delete_file isWindows p env
              = { path := p, status := DeletionStatus.success }
            ∧ delete_directory isWindows p env
              = { path := p, status := DeletionStatus.success })
          ∧ (env.metadataOk = false ∨ env.retryOk = false →
            delete_file isWindows p env
              = { path := p
                  status :=
                    DeletionStatus.failed
                      (ManagerError.permissionDenied p) }
            ∧ delete_directory isWindows p env
              = { path := p
                  status :=
                    DeletionStatus.failed
                      (ManagerError.permissionDenied p) }))
        ∧ (e.kind = ErrorKind.notFound →
          delete_file isWindows p env
            = { path := p, status := DeletionStatus.skipped }
          ∧ delete_directory isWindows p env
            = { path := p, status := DeletionStatus.skipped })
        ∧ (e.kind = ErrorKind.otherKind →
          delete_file isWindows p env
            = { path := p
                status :=
                  DeletionStatus.failed (ManagerError.io e.kind e.msg) }
          ∧ delete_directory isWindows p env
            = { path := p
                status :=
                  DeletionStatus.failed (ManagerError.io e.kind e.msg) }))) := by
  refine ⟨fun h0 => ?_, fun h0 hr ha => ?_, fun h0 hr ha => ?_,
    fun e h0 hr => ⟨fun hs => ?_, fun hs => ⟨fun hk => ⟨fun hm hret => ?_,
      fun hret => ?_⟩, fun hk => ?_, fun hk => ?_⟩⟩⟩ <;>
    unfold delete_file delete_directory
  · exact ⟨deleteClassify_notExists _ _ _ _ h0,
      deleteClassify_notExists _ _ _ _ h0⟩
  · exact ⟨deleteClassify_removed_still _ _ _ _ h0 hr ha,
      deleteClassify_removed_still _ _ _ _ h0 hr ha⟩
  · exact ⟨deleteClassify_removed_gone _ _ _ _ h0 hr ha,
      deleteClassify_removed_gone _ _ _ _ h0 hr ha⟩
  · exact ⟨deleteClassify_sharing _ _ _ _ e h0 hr hs,
      deleteClassify_sharing _ _ _ _ e h0 hr hs⟩
  · exact ⟨deleteClassify_perm_retry_ok _ _ _ _ e h0 hr hs hk hm hret,
      deleteClassify_perm_retry_ok _ _ _ _ e h0 hr hs hk hm hret⟩
  · exact ⟨deleteClassify_perm_retry_fails _ _ _ _ e h0 hr hs hk hret,
      deleteClassify_perm_retry_fails _ _ _ _ e h0 hr hs hk hret⟩
  · exact ⟨deleteClassify_race_notFound _ _ _ _ e h0 hr hs hk,
      deleteClassify_race_notFound _ _ _ _ e h0 hr hs hk⟩
  · exact ⟨deleteClassify_other_failure _ _ _ _ e h0 hr hs hk,
      deleteClassify_other_failure _ _ _ _ e h0 hr hs hk⟩

/-- A filesystem environment in which the path does not exist. -/
def envMissing : DeleteEnv := ⟨false, none, false, false, false⟩

/-- The IO error of a Windows sharing violation (raw OS code 32). -/
def sharingErr : IoError := ⟨ErrorKind.otherKind, some 32, "busy".data⟩

/-- An environment in which the delete fails with a sharing violation. -/
def envSharing : DeleteEnv := ⟨true, some sharingErr, false, false, false⟩

/-- Witness for C2 at concrete inputs: a nonexistent path is Skipped, and
a Windows sharing-violation (raw OS code 32) is Failed(FileInUse). -/
theorem deletion_engine_state_machine_witness :
    delete_file false "a".data envMissing
      = { path := "a".data, status := DeletionStatus.skipped }
    ∧ delete_directory true "b".data envSharing
      = { path := "b".data
          status := DeletionStatus.failed (ManagerError.fileInUse "b".data) } := by
  constructor
  · exact ((deletion_engine_state_machine false "a".data envMissing).1 rfl).1
  · exact (((deletion_engine_state_machine true "b".data envSharing).2.2.2
      sharingErr rfl rfl).1 (by decide)).2

/-- Claim C7: `execute_deletion` never aborts early: it yields exactly one
`DeletionResult` per input path, in input order, the i-th result's path
is the i-th input path, and each path is deleted as a directory or as a
file according to its directory-ness at call time. -/
theorem execute_deletion_per_item (isWindows : Bool)
    (items : List DeletionItem) :
    (execute_deletion isWindows items).length = items.length
    ∧ (∀ i : Nat,
      (execute_deletion isWindows items).get? i
        = (items.get? i).map (fun it =>
            if it.isDir then delete_directory isWindows it.path it.env
            else delete_file isWindows it.path it.env))
    ∧ (∀ i : Nat,
      ((execute_deletion isWindows items).get? i).map (fun r => r.path)
        = (items.get? i).map (fun it => it.path)) := by
  refine ⟨List.length_map _ _, fun i => List.get?_map _ _ _, fun i => ?_⟩
  rw [show execute_deletion isWindows items
      = items.map (fun it =>
          if it.isDir then delete_directory isWindows it.path it.env
          else delete_file isWindows it.path it.env) from rfl]
  rw [List.get?_map]
  cases items.get? i with
  | none => rfl
  | some it =>
    by_cases hd : it.isDir <;>
      simp [hd, delete_file, delete_directory, deleteClassify_path]

/-- `NetworkRetryConfig` (src/config.rs lines 50-59); the `f64` multiplier
is modelled as a rational number. -/
structure NetworkRetryConfig where
  attempts : Nat
  baseDelaySecs : Nat
  multiplier : ℚ
  maxDelaySecs : Nat

/-- `NetworkRetryConfig::default` (src/config.rs lines 61-70):
attempts 3, base 5 s, multiplier 2.0, cap 15 s. -/
def networkRetryConfigDefault : NetworkRetryConfig :=
  { attempts := 3, baseDelaySecs := 5, multiplier := 2, maxDelaySecs := 15 }

/-- The backoff delay computed inside `with_retry` (src/net.rs lines
22-23): `raw = base * multiplier^attempt`, then `raw.min(max).ceil()`
converted to whole seconds. -/
def backoffDelaySecs (cfg : NetworkRetryConfig) (attempt : Nat) : Nat :=
  (⌈min ((cfg.baseDelaySecs : ℚ) * cfg.multiplier ^ attempt)
      ((cfg.maxDelaySecs : ℚ))⌉).toNat

/-- Observable trace of one `with_retry` call: the returned value (`none`
models the `unreachable!()` reached only when `attempts = 0`), how many
times the operation was invoked, how many retry notifications
(`ui.network_retrying`) were emitted, and the backoff delays slept. -/
structure RetryTrace (ε τ : Type) where
  result : Option (RResult ε τ)
  invocations : Nat
  notifications : Nat
  sleptDelays : List Nat
deriving Repr

/-- The loop of `with_retry` (src/net.rs lines 18-49), starting at a given
attempt index; `fuel` counts the loop iterations that remain, so the
function is entered with `fuel = cfg.attempts`.  `f n` is the outcome the
operation produces on its (0-indexed) n-th invocation. -/
def withRetryFrom {ε τ : Type} (cfg : NetworkRetryConfig)
    (f : Nat → RResult ε τ) : Nat → Nat → RetryTrace ε τ
  | _, 0 => ⟨none, 0, 0, []⟩
  | attempt, fuel + 1 =>
    match f attempt with
    | RResult.ok v => ⟨some (RResult.ok v), 1, 0, []⟩
    | RResult.error e =>
      if attempt < cfg.attempts - 1 then
        let d := backoffDelaySecs cfg attempt
        let t := withRetryFrom cfg f (attempt + 1) fuel
        ⟨t.result, t.invocations + 1, t.notifications + 1, d :: t.sleptDelays⟩
      else ⟨some (RResult.error e), 1, 0, []⟩

/-- `with_retry` (src/net.rs lines 12-52). -/
def with_retry {ε τ : Type} (cfg : NetworkRetryConfig)
    (f : Nat → RResult ε τ) : RetryTrace ε τ :=
  withRetryFrom cfg f 0 cfg.attempts

theorem withRetryFrom_invocations_le {ε τ : Type} (cfg : NetworkRetryConfig)
    (f : Nat → RResult ε τ) :
    ∀ fuel attempt, (withRetryFrom cfg f attempt fuel).invocations ≤ fuel := by
  intro fuel
  induction fuel with
  | zero => intro attempt; simp [withRetryFrom]
  | succ n ih =>
    intro attempt
    unfold withRetryFrom
    cases f attempt with
    | ok v => simp
    | error e =>
      by_cases h : attempt < cfg.attempts - 1
      · simpa [h] using Nat.succ_le_succ (ih (attempt + 1))
      · simp [h]

theorem withRetryFrom_success {ε τ : Type} (cfg : NetworkRetryConfig)
    (f : Nat → RResult ε τ) :
    ∀ (j : Nat) (fuel attempt : Nat) (v : τ), j < fuel →
      attempt + fuel = cfg.attempts →
      (∀ i, i < j → ∃ er, f (attempt + i) = RResult.error er) →
      f (attempt + j) = RResult.ok v →
      withRetryFrom cfg f attempt fuel
        = ⟨some (RResult.ok v), j + 1, j,
            (List.range j).map (fun i => backoffDelaySecs cfg (attempt + i))⟩ := by
  intro j
  induction j with
  | zero =>
    intro fuel attempt v hlt htot hfail hok
    obtain ⟨n, rfl⟩ := Nat.exists_eq_succ_of_ne_zero (Nat.pos_iff_ne_zero.1 hlt)
    unfold withRetryFrom
    rw [show attempt + 0 = attempt from rfl] at hok
    rw [hok]
    simp
  | succ m ih =>
    intro fuel attempt v hlt htot hfail hok
    obtain ⟨n, rfl⟩ : ∃ n, fuel = n + 1 :=
      ⟨fuel - 1, (Nat.succ_pred_eq_of_pos (Nat.lt_of_le_of_lt (Nat.zero_le _) hlt)).symm⟩
    obtain ⟨er, her⟩ := hfail 0 (Nat.succ_pos m)
    unfold withRetryFrom
    rw [show attempt + 0 = attempt from rfl] at her
    rw [her]
    have hcond : attempt < cfg.attempts - 1 := by omega
    have hrec := ih n (attempt + 1) v (by omega) (by omega)
      (fun i hi => by
        obtain ⟨er2, her2⟩ := hfail (i + 1) (Nat.succ_lt_succ hi)
        exact ⟨er2, by rw [show attempt + 1 + i = attempt + (i + 1) by omega]; exact her2⟩)
      (by rw [show attempt + 1 + m = attempt + (m + 1) by omega]; exact hok)
    simp only [hcond, if_true, hrec]
    refine congrArg (fun l => RetryTrace.mk (some (RResult.ok v)) (m + 1 + 1) (m + 1) l) ?_
    rw [List.range_succ_eq_map, List.map_cons, List.map_map]
    refine congrArg₂ List.cons (by rw [Nat.add_zero]) ?_
    refine List.map_congr_left fun i _ => ?_
    simp only [Function.comp_apply]
    exact congrArg (backoffDelaySecs cfg) (by omega)

theorem withRetryFrom_all_fail {ε τ : Type} (cfg : NetworkRetryConfig)
    (f : Nat → RResult ε τ) :
    ∀ (fuel attempt : Nat) (e : ε), 0 < fuel →
      attempt + fuel = cfg.attempts →
      (∀ i, i < fuel → ∃ er, f (attempt + i) = RResult.error er) →
      f (attempt + (fuel - 1)) = RResult.error e →
      withRetryFrom cfg f attempt fuel
        = ⟨some (RResult.error e), fuel, fuel - 1,
            (List.range (fuel - 1)).map
              (fun i => backoffDelaySecs cfg (attempt + i))⟩ := by
  intro fuel
  induction fuel with
  | zero => intro attempt e h; omega
  | succ n ih =>
    intro attempt e hpos htot hfail hlast
    unfold withRetryFrom
    cases n with
    | zero =>
      rw [show attempt + (1 - 1) = attempt from rfl] at hlast
      rw [hlast]
      have hcond : ¬attempt < cfg.attempts - 1 := by omega
      simp [hcond]
    | succ m =>
      obtain ⟨er, her⟩ := hfail 0 (Nat.succ_pos _)
      rw [show attempt + 0 = attempt from rfl] at her
      rw [her]
      have hcond : attempt < cfg.attempts - 1 := by omega
      have hrec := ih (attempt + 1) e (Nat.succ_pos m) (by omega)
        (fun i hi => by
          obtain ⟨er2, her2⟩ := hfail (i + 1) (Nat.succ_lt_succ hi)
          exact ⟨er2, by rw [show attempt + 1 + i = attempt + (i + 1) by omega]; exact her2⟩)
        (by rw [show attempt + 1 + (m + 1 - 1) = attempt + (m + 2 - 1) by omega]; exact hlast)
      simp only [hcond, if_true, hrec]
      refine congrArg (fun l => RetryTrace.mk (some (RResult.error e))
        (m + 1 + 1) (m + 1) l) ?_
      rw [show m + 2 - 1 = m + 1 from rfl, show m + 1 - 1 = m from rfl,
        List.range_succ_eq_map, List.map_cons, List.map_map]
      refine congrArg₂ List.cons (by rw [Nat.add_zero]) ?_
      refine List.map_congr_left fun i _ => ?_
      simp only [Function.comp_apply]
      exact congrArg (backoffDelaySecs cfg) (by omega)

theorem backoff_default_0 :
    backoffDelaySecs networkRetryConfigDefault 0 = 5 := by
  unfold backoffDelaySecs networkRetryConfigDefault
  norm_num
  decide

theorem backoff_default_1 :
    backoffDelaySecs networkRetryConfigDefault 1 = 10 := by
  unfold backoffDelaySecs networkRetryConfigDefault
  norm_num
  decide

theorem backoff_default_2 :
    backoffDelaySecs networkRetryConfigDefault 2 = 15 := by
  unfold backoffDelaySecs networkRetryConfigDefault
  norm_num
  decide

theorem withRetry_slept_of_all_fail {ε τ : Type} (cfg : NetworkRetryConfig)
    (f : Nat → RResult ε τ) (hfail : ∀ i, ∃ er, f i = RResult.error er) :
    (with_retry cfg f).sleptDelays
      = (List.range (cfg.attempts - 1)).map (fun n => backoffDelaySecs cfg n) := by
  cases hA : cfg.attempts with
  | zero => simp [with_retry, hA, withRetryFrom]
  | succ n =>
    obtain ⟨e, he⟩ := hfail n
    have h := withRetryFrom_all_fail cfg f (n + 1) 0 e (Nat.succ_pos n)
      (by omega) (fun i _ => by simpa using hfail i)
      (by rw [show 0 + (n + 1 - 1) = n from by omega]; exact he)
    unfold with_retry
    rw [hA, h]
    simp

theorem withRetry_default_slept {ε τ : Type} (f : Nat → RResult ε τ)
    (hfail : ∀ i, ∃ er, f i = RResult.error er) :
    (with_retry networkRetryConfigDefault f).sleptDelays = [5, 10] := by
  rw [withRetry_slept_of_all_fail networkRetryConfigDefault f hfail]
  rw [show networkRetryConfigDefault.attempts - 1 = 2 from rfl]
  rw [show List.range 2 = [0, 1] from rfl]
  rw [List.map_cons, List.map_cons, List.map_nil,
    backoff_default_0, backoff_default_1]

/-- An operation that fails on every invocation. -/
def alwaysFail : Nat → RResult Unit Unit := fun _ => RResult.error ()

/-- Counterexample to C5 as stated: under the default configuration
(attempts 3, base 5, multiplier 2, cap 15) an operation failing on every
attempt sleeps `[5, 10]`, not `[5, 10, 15]` — with 3 attempts there are
only 2 inter-attempt gaps, and no sleep follows the final failure. -/
theorem with_retry_default_sleeps_two :
    (with_retry networkRetryConfigDefault alwaysFail).sleptDelays = [5, 10]
    ∧ (with_retry networkRetryConfigDefault alwaysFail).sleptDelays
        ≠ [5, 10, 15] := by
  have h := withRetry_default_slept alwaysFail (fun i => ⟨(), rfl⟩)
  exact ⟨h, by rw [h]; decide⟩

/-- Claim C5, amended: the backoff delay slept before the (n+1)-st attempt
is `min(base × multiplier^n, max_delay)` rounded up to whole seconds
(`backoffDelaySecs`), for n ranging over the attempts that are followed by
a retry; under the default configuration attempts=3, base=5,
multiplier=2.0, cap=15 the delay sequence actually slept is `[5, 10]`
(the formula value 15 at n=2 is never slept because the third attempt is
the last). -/
theorem with_retry_backoff_formula {ε τ : Type} (cfg : NetworkRetryConfig)
    (f : Nat → RResult ε τ) (hfail : ∀ i, ∃ er, f i = RResult.error er) :
    (with_retry cfg f).sleptDelays
      = (List.range (cfg.attempts - 1)).map (fun n => backoffDelaySecs cfg n)
    ∧ (with_retry networkRetryConfigDefault f).sleptDelays = [5, 10]
    ∧ backoffDelaySecs networkRetryConfigDefault 2 = 15 := by
  exact ⟨withRetry_slept_of_all_fail cfg f hfail,
    withRetry_default_slept f hfail, backoff_default_2⟩

/-- Witness for C5 (amended) at a concrete input. -/
theorem with_retry_backoff_formula_witness :
    (with_retry networkRetryConfigDefault alwaysFail).sleptDelays
      = (List.range (networkRetryConfigDefault.attempts - 1)).map
          (fun n => backoffDelaySecs networkRetryConfigDefault n) :=
  (with_retry_backoff_formula networkRetryConfigDefault alwaysFail
    (fun i => ⟨(), rfl⟩)).1

/-- Claim C6: under a policy of N attempts the operation is invoked at
most N times; if every attempt fails the call returns the last attempt's
error after emitting N−1 retry notifications (none after the final
failure); if the (j+1)-st invocation is the first to succeed the call
returns that success and exactly j retry notifications were emitted. -/
theorem with_retry_control_flow {ε τ : Type} (cfg : NetworkRetryConfig)
    (f : Nat → RResult ε τ) :
    (with_retry cfg f).invocations ≤ cfg.attempts
    ∧ (∀ e : ε, 0 < cfg.attempts →
        (∀ i, i < cfg.attempts → ∃ er, f i = RResult.error er) →
        f (cfg.attempts - 1) = RResult.error e →
        (with_retry cfg f).result = some (RResult.error e)
        ∧ (with_retry cfg f).invocations = cfg.attempts
        ∧ (with_retry cfg f).notifications = cfg.attempts - 1)
    ∧ (∀ (j : Nat) (v : τ), j < cfg.attempts →
        (∀ i, i < j → ∃ er, f i = RResult.error er) →
        f j = RResult.ok v →
        (with_retry cfg f).result = some (RResult.ok v)
        ∧ (with_retry cfg f).invocations = j + 1
        ∧ (with_retry cfg f).notifications = j) := by
  refine ⟨withRetryFrom_invocations_le cfg f cfg.attempts 0,
    fun e hpos hfail hlast => ?_, fun j v hj hfail hok => ?_⟩
  · have h := withRetryFrom_all_fail cfg f cfg.attempts 0 e hpos (by omega)
      (fun i hi => by simpa using hfail i hi)
      (by simpa using hlast)
    unfold with_retry
    rw [h]
    exact ⟨rfl, rfl, rfl⟩
  · have h := withRetryFrom_success cfg f j cfg.attempts 0 v hj (by omega)
      (fun i hi => by simpa using hfail i hi)
      (by simpa using hok)
    unfold with_retry
    rw [h]
    exact ⟨rfl, rfl, rfl⟩

/-- An operation that fails on its first two invocations and returns 7 on
the third. -/
def failTwiceThenOk : Nat → RResult Unit Nat :=
  fun i => if i < 2 then RResult.error () else RResult.ok 7

/-- Witness for C6 at a concrete input: two failures then a success
within the default 3-attempt policy yields the success with exactly two
retry notifications and three invocations. -/
theorem with_retry_control_flow_witness :
    (with_retry networkRetryConfigDefault failTwiceThenOk).result
      = some (RResult.ok 7)
    ∧ (with_retry networkRetryConfigDefault failTwiceThenOk).invocations = 3
    ∧ (with_retry networkRetryConfigDefault failTwiceThenOk).notifications = 2 :=
  (with_retry_control_flow networkRetryConfigDefault failTwiceThenOk).2.2 2 7
    (by decide)
    (fun i hi => ⟨(), by
      unfold failTwiceThenOk
      simp [hi]⟩)
    (by decide)

/-- `VersionInfo` (src/model.rs lines 6-13). -/
structure VersionInfo where
  bepInEx : RStr
  manager : RStr
  dlls : List RStr
  zips : List RStr
deriving DecidableEq, Repr

/-- `VersionInfo::bepinex_filename` (src/model.rs lines 40-49):
`split('#').nth(1)`, trimmed, or `InvalidVersionInfo`. -/
def bepinex_filename (v : VersionInfo) : RResult ManagerError RStr :=
  match (splitChar '#' v.bepInEx).get? 1 with
  | some s => RResult.ok (trimChars s)
  | none => RResult.error ManagerError.invalidVersionInfo

/-- `VersionInfo::bepinex_version` (src/model.rs lines 52-61):
`split('#').nth(0)`, trimmed, or `InvalidVersionInfo`. -/
def bepinex_version (v : VersionInfo) : RResult ManagerError RStr :=
  match (splitChar '#' v.bepInEx).get? 0 with
  | some s => RResult.ok (trimChars s)
  | none => RResult.error ManagerError.invalidVersionInfo

theorem splitChar_ne_nil (sep : Char) : ∀ cs : RStr, splitChar sep cs ≠ [] := by
  intro cs
  cases cs with
  | nil => simp [splitChar]
  | cons c cs =>
    unfold splitChar
    by_cases h : c = sep
    · simp [h]
    · simp only [h, if_false]
      cases hr : splitChar sep cs with
      | nil => simp
      | cons x xs => simp

/-- Claim C8: the code violates it.  `bepinex_version` never returns an
error — `split('#').nth(0)` always yields a piece, so on an encoded field
with no `#` separator it returns the whole trimmed string instead of
failing; `bepinex_filename` does fail explicitly on the same input. -/
theorem bepinex_version_never_errors :
    (∀ v : VersionInfo, ∃ s, bepinex_version v = RResult.ok s)
    ∧ bepinex_version ⟨"5.4.21".data, [], [], []⟩ = RResult.ok "5.4.21".data
    ∧ bepinex_filename ⟨"5.4.21".data, [], [], []⟩
        = RResult.error ManagerError.invalidVersionInfo := by
  refine ⟨fun v => ?_, by decide, by decide⟩
  cases hs : (splitChar '#' v.bepInEx).get? 0 with
  | some s => exact ⟨trimChars s, by unfold bepinex_version; rw [hs]⟩
  | none =>
    exfalso
    cases hl : splitChar '#' v.bepInEx with
    | nil => exact splitChar_ne_nil '#' v.bepInEx hl
    | cons x xs => rw [hl] at hs; exact Option.noConfusion hs

/-- Index of the last `.` in a file name, if any: the position Rust's
`Path::extension` splits at. -/
def lastDotIdx (cs : RStr) : Option Nat :=
  ((List.range cs.length).filter (fun i => cs.get? i == some '.')).getLast?

/-- Model of Rust `Path::set_extension` / `with_extension` on a file
name: the current extension — everything after the last `.`, unless that
`.` is the leading character — is replaced by `ext` (or appended if there
is no extension). -/
def withExtensionName (name : RStr) (ext : RStr) : RStr :=
  let stem :=
    match lastDotIdx name with
    | none => name
    | some 0 => name
    | some (i + 1) => name.take (i + 1)
  if ext.isEmpty then stem else stem ++ ('.' :: ext)

/-- The backup name probed at a given index (src/file_ops.rs lines
95-100): `path.with_extension(ext_suffix)` at index 0, and
`path.with_extension(format!("{ext_suffix}.{idx}"))` for idx ≥ 1.  The
path is represented by its file name; `with_extension` never touches the
directory part. -/
def backupName (path : RStr) (extSuffix : RStr) (idx : Nat) : RStr :=
  if idx = 0 then withExtensionName path extSuffix
  else withExtensionName path (extSuffix ++ ('.' :: Nat.toDigits 10 idx))

/-- The probing loop of `backup_with_index` (src/file_ops.rs lines
94-118), race-free: `ex` is the filesystem's existence oracle, and the
rename is assumed to succeed once a free name is found (the source's
retry-on-rename-failure arm only fires when a concurrent writer takes the
name between the probe and the rename).  `fuel` bounds the (in the source
unbounded) search. -/
def backupLoop (ex : RStr → Bool) (path extSuffix : RStr) :
    Nat → Nat → Option RStr
  | _, 0 => none
  | idx, fuel + 1 =>
    let backup := backupName path extSuffix idx
    if ex backup then backupLoop ex path extSuffix (idx + 1) fuel
    else some backup

/-- Message of the NotFound error of `backup_with_index`
(src/file_ops.rs lines 87-92). -/
def backupNotFoundMsg (path : RStr) : RStr := "源路径不存在：".data ++ path

/-- `backup_with_index` (src/file_ops.rs lines 86-119). -/
def backup_with_index (ex : RStr → Bool) (path extSuffix : RStr)
    (fuel : Nat) : Option (RResult ManagerError RStr) :=
  if ex path = false then
    some (RResult.error
      (ManagerError.io ErrorKind.notFound (backupNotFoundMsg path)))
  else
    (backupLoop ex path extSuffix 0 fuel).map RResult.ok

/-- An existence oracle under which only `foo.txt` exists. -/
def exOnlySource : RStr → Bool := fun s => s == "foo.txt".data

/-- Counterexample to C4 as stated: backing up the existing path
`foo.txt` with suffix `old` produces `foo.old` — Rust `with_extension`
replaces the final extension — not the claimed `foo.txt.old` obtained by
appending the suffix to the full filename. -/
theorem backup_with_index_not_append :
    backup_with_index exOnlySource "foo.txt".data "old".data 5
      = some (RResult.ok "foo.old".data)
    ∧ "foo.old".data ≠ "foo.txt".data ++ ('.' :: "old".data) := by
  constructor
  · decide
  · decide

/-- Claim C4, amended: `backup_with_index` fails with NotFound when the
source path does not exist; otherwise it moves the path to
`path.with_extension(suffix)` (index 0) or
`path.with_extension("suffix.n")` (index n ≥ 1) — the final extension of
the filename is replaced by the suffix, appending only when there is no
extension to replace — choosing the smallest index whose name is not
already taken. -/
theorem backup_with_index_spec (ex : RStr → Bool) (path extSuffix : RStr)
    (fuel : Nat) :
    (ex path = false →
      backup_with_index ex path extSuffix fuel
        = some (RResult.error
            (ManagerError.io ErrorKind.notFound (backupNotFoundMsg path))))
    ∧ (ex path = true → ∀ j, j < fuel →
        ex (backupName path extSuffix j) = false →
        ∃ i, backup_with_index ex path extSuffix fuel
            = some (RResult.ok (backupName path extSuffix i))
          ∧ ex (backupName path extSuffix i) = false
          ∧ ∀ m, m < i → ex (backupName path extSuffix m) = true) := by
  constructor
  · intro h
    unfold backup_with_index
    rw [h]
    simp
  · intro hex j hj hfree
    have key : ∀ (fl idx : Nat),
        (∃ j2, idx ≤ j2 ∧ j2 < idx + fl
          ∧ ex (backupName path extSuffix j2) = false) →
        ∃ i, backupLoop ex path extSuffix idx fl
            = some (backupName path extSuffix i)
          ∧ idx ≤ i ∧ ex (backupName path extSuffix i) = false
          ∧ ∀ m, idx ≤ m → m < i → ex (backupName path extSuffix m) = true := by
      intro fl
      induction fl with
      | zero => rintro idx ⟨j2, h1, h2, -⟩; omega
      | succ n ih =>
        rintro idx ⟨j2, h1, h2, h3⟩
        by_cases hcur : ex (backupName path extSuffix idx) = true
        · have hne : j2 ≠ idx := fun hEq => by rw [hEq, hcur] at h3; cases h3
          obtain ⟨i, hi1, hi2, hi3, hi4⟩ := ih (idx + 1) ⟨j2, by omega, by omega, h3⟩
          refine ⟨i, ?_, by omega, hi3, fun m hm1 hm2 => ?_⟩
          · unfold backupLoop
            simp only [hcur, if_true]
            exact hi1
          · rcases Nat.eq_or_lt_of_le hm1 with hEq | hlt
            · rw [← hEq]; exact hcur
            · exact hi4 m hlt hm2
        · refine ⟨idx, ?_, Nat.le_refl idx,
            Bool.eq_false_iff.2 (fun hc => hcur hc), fun m hm1 hm2 => by omega⟩
          unfold backupLoop
          simp [hcur]
    obtain ⟨i, hi1, -, hi3, hi4⟩ := key fuel 0 ⟨j, Nat.zero_le j, by omega, hfree⟩
    refine ⟨i, ?_, hi3, fun m hm => hi4 m (Nat.zero_le m) hm⟩
    unfold backup_with_index
    rw [hex]
    simp only [Bool.true_eq_false, if_false, hi1]
    rfl

/-- Witness for C4 (amended) at a concrete input: `foo.txt` exists, index
0 is free, and the backup lands at the smallest free index. -/
theorem backup_with_index_spec_witness :
    ∃ i, backup_with_index exOnlySource "foo.txt".data "old".data 5
        = some (RResult.ok (backupName "foo.txt".data "old".data i))
      ∧ exOnlySource (backupName "foo.txt".data "old".data i) = false
      ∧ ∀ m, m < i → exOnlySource (backupName "foo.txt".data "old".data m) = true :=
  (backup_with_index_spec exOnlySource "foo.txt".data "old".data 5).2
    (by decide) 0 (by decide) (by decide)

/-- A stable insertion into a list sorted by the boolean comparator `le`:
the new element passes every earlier element that compares ≤ it, so
elements inserted later land after equal elements inserted earlier.
Models the stability of Rust's `sort` / `sort_by`. -/
def sortInsert {α : Type} (le : α → α → Bool) (x : α) : List α → List α
  | [] => [x]
  | y :: ys => if le y x then y :: sortInsert le x ys else x :: y :: ys

/-- Insert each element of the first list, in order, into the
accumulator. -/
def insertAll {α : Type} (le : α → α → Bool) : List α → List α → List α
  | [], acc => acc
  | x :: xs, acc => insertAll le xs (sortInsert le x acc)

/-- Stable sort by a boolean comparator: model of Rust's
`Vec::sort` / `Vec::sort_by`. -/
def sortByStable {α : Type} (le : α → α → Bool) (l : List α) : List α :=
  insertAll le l []

theorem sortInsert_perm {α : Type} (le : α → α → Bool) (x : α) :
    ∀ l : List α, (sortInsert le x l).Perm (x :: l) := by
  intro l
  induction l with
  | nil => simp [sortInsert]
  | cons y ys ih =>
    unfold sortInsert
    by_cases h : le y x
    · simp only [h, if_true]
      exact (ih.cons y).trans (List.Perm.swap x y ys)
    · simp [h]

theorem insertAll_perm {α : Type} (le : α → α → Bool) :
    ∀ (l acc : List α), (insertAll le l acc).Perm (acc ++ l) := by
  intro l
  induction l with
  | nil => intro acc; simp [insertAll]
  | cons x xs ih =>
    intro acc
    unfold insertAll
    refine (ih (sortInsert le x acc)).trans ?_
    refine (List.Perm.append_right xs (sortInsert_perm le x acc)).trans ?_
    exact List.perm_middle.symm

theorem sortByStable_perm {α : Type} (le : α → α → Bool) (l : List α) :
    (sortByStable le l).Perm l := by
  simpa using insertAll_perm le l []

theorem sortInsert_pairwise {α : Type} (le : α → α → Bool)
    (htrans : ∀ a b c, le a b = true → le b c = true → le a c = true)
    (htot : ∀ a b, le a b = true ∨ le b a = true) (x : α) :
    ∀ l : List α, l.Pairwise (fun a b => le a b = true) →
      (sortInsert le x l).Pairwise (fun a b => le a b = true) := by
  intro l
  induction l with
  | nil => intro _; simp [sortInsert]
  | cons y ys ih =>
    intro h
    rw [List.pairwise_cons] at h
    obtain ⟨hy, hys⟩ := h
    unfold sortInsert
    by_cases hle : le y x = true
    · rw [if_pos hle, List.pairwise_cons]
      refine ⟨fun z hz => ?_, ih hys⟩
      rcases List.mem_cons.1 ((List.Perm.mem_iff (sortInsert_perm le x ys)).1 hz)
        with hzx | hzys
      · exact hzx ▸ hle
      · exact hy z hzys
    · have hxy : le x y = true := by
        rcases htot x y with h | h
        · exact h
        · exact absurd h hle
      rw [if_neg hle, List.pairwise_cons]
      refine ⟨fun z hz => ?_, List.pairwise_cons.2 ⟨hy, hys⟩⟩
      rcases List.mem_cons.1 hz with hzy | hzys
      · exact hzy ▸ hxy
      · exact htrans x y z hxy (hy z hzys)

theorem insertAll_pairwise {α : Type} (le : α → α → Bool)
    (htrans : ∀ a b c, le a b = true → le b c = true → le a c = true)
    (htot : ∀ a b, le a b = true ∨ le b a = true) :
    ∀ (l acc : List α), acc.Pairwise (fun a b => le a b = true) →
      (insertAll le l acc).Pairwise (fun a b => le a b = true) := by
  intro l
  induction l with
  | nil => intro acc h; exact h
  | cons x xs ih =>
    intro acc h
    exact ih (sortInsert le x acc) (sortInsert_pairwise le htrans htot x acc h)

theorem sortByStable_pairwise {α : Type} (le : α → α → Bool)
    (htrans : ∀ a b c, le a b = true → le b c = true → le a c = true)
    (htot : ∀ a b, le a b = true ∨ le b a = true) (l : List α) :
    (sortByStable le l).Pairwise (fun a b => le a b = true) :=
  insertAll_pairwise le htrans htot l [] List.Pairwise.nil

/-- Semantic version triple: model of the `semver` crate's
`Version` restricted to plain `MAJOR.MINOR.PATCH` versions, the form the
manager's artifact names carry. -/
structure SemVer where
  major : Nat
  minor : Nat
  patch : Nat
deriving DecidableEq, Repr

/-- Whether a character is an ASCII digit. -/
def isDigitChar (c : Char) : Bool := 48 ≤ c.toNat && c.toNat ≤ 57

/-- Numeric value of a digit string. -/
def digitsToNat (cs : RStr) : Nat :=
  cs.foldl (fun acc c => acc * 10 + (c.toNat - 48)) 0

/-- Parse one numeric component the way the `semver` crate does: decimal
digits only, nonempty, no leading zero (except `0` itself). -/
def parseNumericPart (cs : RStr) : Option Nat :=
  if cs.isEmpty then none
  else if cs.all isDigitChar = false then none
  else if 1 < cs.length ∧ cs.head? = some '0' then none
  else some (digitsToNat cs)

/-- `semver::Version::parse` on a plain `MAJOR.MINOR.PATCH` string. -/
def semverParse (cs : RStr) : Option SemVer :=
  match splitChar '.' cs with
  | [a, b, c] =>
    match parseNumericPart a, parseNumericPart b, parseNumericPart c with
    | some x, some y, some z => some ⟨x, y, z⟩
    | _, _, _ => none
  | _ => none

/-- `Version::to_string` for a plain triple. -/
def semverToChars (v : SemVer) : RStr :=
  Nat.toDigits 10 v.major ++ ('.' :: Nat.toDigits 10 v.minor)
    ++ ('.' :: Nat.toDigits 10 v.patch)

/-- The `semver` crate's version ordering on plain triples:
lexicographic on (major, minor, patch). -/
def verLe (a b : SemVer) : Bool :=
  if a.major < b.major then true
  else if b.major < a.major then false
  else if a.minor < b.minor then true
  else if b.minor < a.minor then false
  else decide (a.patch ≤ b.patch)

theorem verLe_trans (a b c : SemVer) (h1 : verLe a b = true)
    (h2 : verLe b c = true) : verLe a c = true := by
  unfold verLe at h1 h2 ⊢
  split_ifs at h1 h2 ⊢ <;> simp_all <;> omega

theorem verLe_total (a b : SemVer) : verLe a b = true ∨ verLe b a = true := by
  unfold verLe
  split_ifs <;> simp_all <;> omega

theorem verLe_refl (a : SemVer) : verLe a a = true := by
  unfold verLe
  split_ifs <;> simp_all

/-- Rust's `Ord` for strings (used by `unparsed.sort()`): byte-wise —
here character-wise — lexicographic order. -/
def lexLeChars : RStr → RStr → Bool
  | [], _ => true
  | _ :: _, [] => false
  | a :: as, b :: bs =>
    if a.toNat < b.toNat then true
    else if b.toNat < a.toNat then false
    else lexLeChars as bs

theorem lexLeChars_trans :
    ∀ a b c : RStr, lexLeChars a b = true → lexLeChars b c = true →
      lexLeChars a c = true := by
  intro a
  induction a with
  | nil => intro b c _ _; rfl
  | cons x xs ih =>
    intro b c h1 h2
    cases b with
    | nil => exact absurd h1 (by simp [lexLeChars])
    | cons y ys =>
      cases c with
      | nil => exact absurd h2 (by simp [lexLeChars])
      | cons z zs =>
        unfold lexLeChars at h1 h2 ⊢
        split_ifs at h1 h2 ⊢ <;> simp_all <;>
          first
          | omega
          | exact ih ys zs (by simp_all) (by simp_all)

theorem lexLeChars_total : ∀ a b : RStr,
    lexLeChars a b = true ∨ lexLeChars b a = true := by
  intro a
  induction a with
  | nil => intro b; left; rfl
  | cons x xs ih =>
    intro b
    cases b with
    | nil => right; rfl
    | cons y ys =>
      unfold lexLeChars
      split_ifs <;> simp_all <;> omega

theorem lexLeChars_refl : ∀ a : RStr, lexLeChars a a = true := by
  intro a
  induction a with
  | nil => rfl
  | cons x xs ih =>
    unfold lexLeChars
    split_ifs <;> simp_all

/-- `Upgrader::parse_version` (src/upgrader.rs lines 31-39): strip the
prefix, strip the suffix, parse the rest as a semantic version. -/
def parse_version (name pre suf : RStr) : Option SemVer :=
  if pre.isPrefixOf name then
    let s := name.drop pre.length
    if suf.isSuffixOf s then
      semverParse (s.take (s.length - suf.length))
    else none
  else none

/-- The choice `consolidate_installed_by_pattern` makes, before backups
are attempted: the latest (version string, path) if any candidate exists,
and the list of paths demoted to indexed backups, in the order the code
attempts them. -/
structure ConsolidateCore where
  latest : Option (RStr × RStr)
  toBackup : List RStr
deriving DecidableEq, Repr

/-- The parsed candidates, in glob order: pairs (version, path). -/
def parsedCandidates (files : List RStr) (pre suf : RStr) :
    List (SemVer × RStr) :=
  files.filterMap fun f => (parse_version f pre suf).map (fun v => (v, f))

/-- The unparsed candidates, in glob order. -/
def unparsedCandidates (files : List RStr) (pre suf : RStr) : List RStr :=
  files.filter fun f => (parse_version f pre suf).isNone

/-- The decision logic of `Upgrader::consolidate_installed_by_pattern`
(src/upgrader.rs lines 63-139).  `files` are the glob matches (paths are
represented by their file names, all in the same directory).  Candidates
are partitioned into parsed and unparsed; if any parsed, they are stably
sorted by version, the last is the latest and the rest — reversed,
skipping the first — are demoted; otherwise the unparsed are sorted and
treated the same way, the latest's version string being its file name. -/
def consolidateChoose (dirExists : Bool) (files : List RStr)
    (pre suf : RStr) : ConsolidateCore :=
  if dirExists = false then ⟨none, []⟩
  else
    let parsed := parsedCandidates files pre suf
    let unparsed := unparsedCandidates files pre suf
    if parsed.isEmpty && unparsed.isEmpty then ⟨none, []⟩
    else if parsed.isEmpty = false then
      match (sortByStable (fun a b => verLe a.1 b.1) parsed).reverse with
      | [] => ⟨none, []⟩
      | (v, p) :: rest =>
        ⟨some (semverToChars v, p), rest.map (fun vp => vp.2)⟩
    else
      match (sortByStable lexLeChars unparsed).reverse with
      | [] => ⟨none, []⟩
      | latest :: rest => ⟨some (latest, latest), rest⟩

/-- Result of a consolidation run including which demotions failed. -/
structure ConsolidateResult where
  latest : Option (RStr × RStr)
  toBackup : List RStr
  failedBackups : List RStr
deriving DecidableEq, Repr

/-- `Upgrader::consolidate_installed_by_pattern` with its backup pass
(src/upgrader.rs lines 103-135): every path in `toBackup` is attempted
via `backup_paths_with_index` regardless of other failures — `backupOk`
is the outcome oracle — and failures are only reported. -/
def consolidate_installed_by_pattern (dirExists : Bool) (files : List RStr)
    (pre suf : RStr) (backupOk : RStr → Bool) : ConsolidateResult :=
  let core := consolidateChoose dirExists files pre suf
  ⟨core.latest, core.toBackup,
    core.toBackup.filter (fun f => !(backupOk f))⟩

theorem sortByStable_reverse_max {α : Type} (le : α → α → Bool)
    (htrans : ∀ a b c, le a b = true → le b c = true → le a c = true)
    (htot : ∀ a b, le a b = true ∨ le b a = true) (l : List α) (x : α)
    (rest : List α) (hrev : (sortByStable le l).reverse = x :: rest) :
    x ∈ l ∧ (∀ y ∈ l, le y x = true) ∧ (x :: rest).Perm l := by
  have hperm : (x :: rest).Perm l := by
    rw [← hrev]
    exact (List.reverse_perm _).trans (sortByStable_perm le l)
  have hpw := sortByStable_pairwise le htrans htot l
  have hpwrev : ((sortByStable le l).reverse).Pairwise
      (fun a b => le b a = true) := List.pairwise_reverse.2 hpw
  rw [hrev, List.pairwise_cons] at hpwrev
  obtain ⟨hxmax, -⟩ := hpwrev
  have hrefl : le x x = true := by rcases htot x x with h | h <;> exact h
  refine ⟨(hperm.mem_iff).1 (List.mem_cons_self x rest), fun y hy => ?_, hperm⟩
  rcases List.mem_cons.1 ((hperm.symm.mem_iff).1 hy) with h | h
  · rw [h]; exact hrefl
  · exact hxmax y h

theorem parse_of_mem_parsedCandidates (files : List RStr) (pre suf : RStr)
    (v : SemVer) (p : RStr) (h : (v, p) ∈ parsedCandidates files pre suf) :
    p ∈ files ∧ parse_version p pre suf = some v := by
  unfold parsedCandidates at h
  obtain ⟨a, ha, hfa⟩ := List.mem_filterMap.1 h
  rcases hopt : parse_version a pre suf with _ | w
  · rw [hopt] at hfa; exact absurd hfa (by simp)
  · rw [hopt] at hfa
    have h2 : (w, a) = (v, p) := by simpa using hfa
    have hw : w = v := congrArg Prod.fst h2
    have ha2 : a = p := congrArg Prod.snd h2
    exact ⟨ha2 ▸ ha, by rw [← ha2, hopt, hw]⟩

/-- Claim C3, amended: with no candidates (or a missing directory) the
consolidator yields None and demotes nothing; if at least one candidate
parses, the latest is a maximum-by-semver parsed candidate, the demoted
files are exactly the other parsed candidates — unparsed candidates are
warned about but left in place, not demoted; if no candidate parses, the
lexicographically greatest raw filename is the latest and the other
unparsed files are demoted; and which demotions fail influences neither
the chosen latest nor the demotion list (failures are only reported). -/
theorem consolidate_spec (dirExists : Bool) (files : List RStr)
    (pre suf : RStr) (backupOk : RStr → Bool) :
    ((dirExists = false ∨ files = []) →
      (consolidate_installed_by_pattern dirExists files pre suf backupOk).latest
          = none
      ∧ (consolidate_installed_by_pattern dirExists files pre suf
          backupOk).toBackup = [])
    ∧ (dirExists = true → parsedCandidates files pre suf ≠ [] →
      ∃ v p,
        (consolidate_installed_by_pattern dirExists files pre suf
            backupOk).latest = some (semverToChars v, p)
        ∧ (v, p) ∈ parsedCandidates files pre suf
        ∧ (∀ w q, (w, q) ∈ parsedCandidates files pre suf → verLe w v = true)
        ∧ (p :: (consolidate_installed_by_pattern dirExists files pre suf
            backupOk).toBackup).Perm
            ((parsedCandidates files pre suf).map (fun vp => vp.2))
        ∧ ∀ f ∈ unparsedCandidates files pre suf,
            f ∉ (consolidate_installed_by_pattern dirExists files pre suf
              backupOk).toBackup)
    ∧ (dirExists = true → parsedCandidates files pre suf = [] →
        unparsedCandidates files pre suf ≠ [] →
      ∃ m,
        (consolidate_installed_by_pattern dirExists files pre suf
            backupOk).latest = some (m, m)
        ∧ m ∈ unparsedCandidates files pre suf
        ∧ (∀ f ∈ unparsedCandidates files pre suf, lexLeChars f m = true)
        ∧ (m :: (consolidate_installed_by_pattern dirExists files pre suf
            backupOk).toBackup).Perm (unparsedCandidates files pre suf))
    ∧ (∀ bk2 : RStr → Bool,
        (consolidate_installed_by_pattern dirExists files pre suf bk2).latest
          = (consolidate_installed_by_pattern dirExists files pre suf
              backupOk).latest
        ∧ (consolidate_installed_by_pattern dirExists files pre suf
            bk2).toBackup
          = (consolidate_installed_by_pattern dirExists files pre suf
              backupOk).toBackup) := by
  have hlat : ∀ bk : RStr → Bool,
      (consolidate_installed_by_pattern dirExists files pre suf bk).latest
        = (consolidateChoose dirExists files pre suf).latest := fun _ => rfl
  have htb : ∀ bk : RStr → Bool,
      (consolidate_installed_by_pattern dirExists files pre suf bk).toBackup
        = (consolidateChoose dirExists files pre suf).toBackup := fun _ => rfl
  refine ⟨?_, ?_, ?_, fun bk2 =>
    ⟨(hlat bk2).trans (hlat backupOk).symm, (htb bk2).trans (htb backupOk).symm⟩⟩
  · rintro (hd | hf) <;> rw [hlat backupOk, htb backupOk]
    · constructor <;> simp [consolidateChoose, hd]
    · subst hf
      constructor <;>
        by_cases hd : dirExists = false <;>
          simp [consolidateChoose, parsedCandidates, unparsedCandidates, hd]
  · intro hd hp
    have hsne : sortByStable (fun a b : SemVer × RStr => verLe a.1 b.1)
        (parsedCandidates files pre suf) ≠ [] := by
      intro h
      apply hp
      have hper := sortByStable_perm
        (fun a b : SemVer × RStr => verLe a.1 b.1)
        (parsedCandidates files pre suf)
      rw [h] at hper
      exact (List.Perm.nil_eq hper).symm
    obtain ⟨⟨v, p⟩, rest, hrev⟩ : ∃ x rest,
        (sortByStable (fun a b : SemVer × RStr => verLe a.1 b.1)
          (parsedCandidates files pre suf)).reverse = x :: rest := by
      cases h : (sortByStable (fun a b : SemVer × RStr => verLe a.1 b.1)
          (parsedCandidates files pre suf)).reverse with
      | nil => exact absurd (List.reverse_eq_nil_iff.1 h) hsne
      | cons a b => exact ⟨a, b, rfl⟩
    obtain ⟨hmem, hmax, hperm⟩ := sortByStable_reverse_max
      (fun a b : SemVer × RStr => verLe a.1 b.1)
      (fun a b c h1 h2 => verLe_trans a.1 b.1 c.1 h1 h2)
      (fun a b => verLe_total a.1 b.1)
      (parsedCandidates files pre suf) (v, p) rest hrev
    have hpe : (parsedCandidates files pre suf).isEmpty = false := by
      cases h : parsedCandidates files pre suf with
      | nil => exact absurd h hp
      | cons a b => rfl
    have hchoose : consolidateChoose dirExists files pre suf
        = ⟨some (semverToChars v, p), rest.map (fun vp => vp.2)⟩ := by
      unfold consolidateChoose
      rw [hd]
      simp only [Bool.true_eq_false, if_false, hpe, Bool.false_and,
        Bool.false_eq_true, hrev]
      simp
    refine ⟨v, p, ?_, hmem, fun w q hwq => hmax (w, q) hwq, ?_, ?_⟩
    · rw [hlat backupOk, hchoose]
    · rw [htb backupOk, hchoose]
      have := hperm.map (fun vp : SemVer × RStr => vp.2)
      simpa using this
    · intro f hf hcontra
      rw [htb backupOk, hchoose] at hcontra
      obtain ⟨⟨w, q⟩, hq, hq2⟩ := List.mem_map.1 hcontra
      have hqparsed : (w, q) ∈ parsedCandidates files pre suf :=
        (hperm.mem_iff).1 (List.mem_cons_of_mem _ hq)
      obtain ⟨-, hqv⟩ := parse_of_mem_parsedCandidates files pre suf w q hqparsed
      have hfn : (parse_version f pre suf).isNone = true :=
        (List.mem_filter.1 hf).2
      rw [← hq2] at hfn
      rw [hqv] at hfn
      cases hfn
  · intro hd hp hu
    have hsne : sortByStable lexLeChars (unparsedCandidates files pre suf)
        ≠ [] := by
      intro h
      apply hu
      have hper := sortByStable_perm lexLeChars
        (unparsedCandidates files pre suf)
      rw [h] at hper
      exact (List.Perm.nil_eq hper).symm
    obtain ⟨m, rest, hrev⟩ : ∃ x rest,
        (sortByStable lexLeChars (unparsedCandidates files pre suf)).reverse
          = x :: rest := by
      cases h : (sortByStable lexLeChars
          (unparsedCandidates files pre suf)).reverse with
      | nil => exact absurd (List.reverse_eq_nil_iff.1 h) hsne
      | cons a b => exact ⟨a, b, rfl⟩
    obtain ⟨hmem, hmax, hperm⟩ := sortByStable_reverse_max lexLeChars
      lexLeChars_trans lexLeChars_total
      (unparsedCandidates files pre suf) m rest hrev
    have hpe : (parsedCandidates files pre suf).isEmpty = true := by
      rw [hp]; rfl
    have hue : (unparsedCandidates files pre suf).isEmpty = false := by
      cases h : unparsedCandidates files pre suf with
      | nil => exact absurd h hu
      | cons a b => rfl
    have hchoose : consolidateChoose dirExists files pre suf
        = ⟨some (m, m), rest⟩ := by
      unfold consolidateChoose
      rw [hd]
      simp only [Bool.true_eq_false, if_false, hpe, hue, Bool.true_and,
        Bool.false_eq_true, Bool.true_eq_false, if_false, hrev]
    refine ⟨m, ?_, hmem, hmax, ?_⟩
    · rw [hlat backupOk, hchoose]
    · rw [htb backupOk, hchoose]
      exact hperm

/-- Two concrete candidate file names: one that parses under the
`MetaMystia-v` / `.dll` convention and one that does not. -/
def fileParsedA : RStr := "MetaMystia-v1.0.0.dll".data

/-- A candidate file name that does not parse as a version. -/
def fileUnparsedB : RStr := "bad.dll".data

/-- Counterexample to C3 as stated: with candidates
`MetaMystia-v1.0.0.dll` (parses) and `bad.dll` (does not), the latest is
`("1.0.0", MetaMystia-v1.0.0.dll)` but nothing is demoted — in
particular the unparsed `bad.dll` is not demoted to an indexed backup,
although the claim requires every unparsed candidate to be demoted. -/
theorem consolidate_leaves_unparsed_in_place :
    (consolidate_installed_by_pattern true [fileParsedA, fileUnparsedB]
        "MetaMystia-v".data ".dll".data (fun _ => true)).latest
      = some ("1.0.0".data, fileParsedA)
    ∧ (consolidate_installed_by_pattern true [fileParsedA, fileUnparsedB]
        "MetaMystia-v".data ".dll".data (fun _ => true)).toBackup = []
    ∧ fileUnparsedB ∈ unparsedCandidates [fileParsedA, fileUnparsedB]
        "MetaMystia-v".data ".dll".data := by
  refine ⟨by decide, by decide, by decide⟩

/-- Witness for C3 (amended) at a concrete input: with one parsed and one
unparsed candidate, the parsed one is chosen and the unparsed one stays. -/
theorem consolidate_spec_witness :
    ∃ v p,
      (consolidate_installed_by_pattern true [fileParsedA, fileUnparsedB]
          "MetaMystia-v".data ".dll".data (fun _ => true)).latest
        = some (semverToChars v, p)
      ∧ (v, p) ∈ parsedCandidates [fileParsedA, fileUnparsedB]
          "MetaMystia-v".data ".dll".data
      ∧ (∀ w q, (w, q) ∈ parsedCandidates [fileParsedA, fileUnparsedB]
          "MetaMystia-v".data ".dll".data → verLe w v = true)
      ∧ (p :: (consolidate_installed_by_pattern true
          [fileParsedA, fileUnparsedB] "MetaMystia-v".data ".dll".data
          (fun _ => true)).toBackup).Perm
          ((parsedCandidates [fileParsedA, fileUnparsedB]
            "MetaMystia-v".data ".dll".data).map (fun vp => vp.2))
      ∧ ∀ f ∈ unparsedCandidates [fileParsedA, fileUnparsedB]
          "MetaMystia-v".data ".dll".data,
          f ∉ (consolidate_installed_by_pattern true
            [fileParsedA, fileUnparsedB] "MetaMystia-v".data ".dll".data
            (fun _ => true)).toBackup :=
  (consolidate_spec true [fileParsedA, fileUnparsedB] "MetaMystia-v".data
    ".dll".data (fun _ => true)).2.1 rfl (by decide)

/-- A Rust `std::path::Component`.  `drive` stands for
`Component::Prefix` (a Windows drive or UNC marker). -/
inductive RComp where
  | normal (s : RStr)
  | parentDir
  | curDir
  | rootDir
  | drive (s : RStr)
deriving DecidableEq, Repr

/-- A Rust `Path`: whether it is absolute, and its components. -/
structure RPath where
  absolute : Bool
  comps : List RComp
deriving DecidableEq, Repr

/-- `Extractor::is_safe_path` (src/extractor.rs lines 13-23): not
absolute, and no parent-directory, drive, or root component. -/
def is_safe_path (p : RPath) : Bool :=
  if p.absolute then false
  else
    !(p.comps.any fun c =>
      match c with
      | RComp.parentDir => true
      | RComp.drive _ => true
      | RComp.rootDir => true
      | _ => false)

/-- The symlink test on a ZIP entry's unix mode
(src/extractor.rs lines 104-108): `(m & 0o170000) == 0o120000`, false
when the mode is absent. -/
def isSymlinkMode (m : Option Nat) : Bool :=
  match m with
  | some mode => (mode.land 0o170000) == 0o120000
  | none => false

/-- One archive entry together with the filesystem's behaviour towards
it: the outcome of `archive.by_index`, the entry's `enclosed_name`
(`none` when the zip crate rejects the raw name), its unix mode, whether
its raw name ends in `/` (directory entry), whether the needed
`create_dir_all` succeeds, the index the temp-name probe ends at, and
whether creating, writing and atomically placing the temp file succeed. -/
structure ZipEntry where
  readOk : Bool
  enclosedName : Option RPath
  unixMode : Option Nat
  nameEndsSlash : Bool
  mkdirOk : Bool
  tmpIdx : Nat
  tmpCreateOk : Bool
  writeOk : Bool
  placeOk : Bool
deriving DecidableEq, Repr

/-- `Path::join` at the component level: an absolute right-hand side
replaces the base. -/
def rustJoin (base : List RComp) (p : RPath) : List RComp :=
  if p.absolute then p.comps else base ++ p.comps

/-- `with_extension` on the last (file-name) component of a path. -/
def withExtComps : List RComp → RStr → List RComp
  | [], _ => []
  | [RComp.normal s], ext => [RComp.normal (withExtensionName s ext)]
  | c :: rest, ext => c :: withExtComps rest ext

/-- The probed temp extension (src/extractor.rs lines 152-158): `tmp`,
then `tmp1`, `tmp2`, …. -/
def tmpExt (n : Nat) : RStr :=
  if n = 0 then "tmp".data else "tmp".data ++ Nat.toDigits 10 n

/-- The temp path used for an entry whose probe stopped at `idx`. -/
def entryTmpPath (outpath : List RComp) (idx : Nat) : List RComp :=
  withExtComps outpath (tmpExt idx)

/-- The distinct failure exits of the per-entry extraction loop
(src/extractor.rs lines 73-203). -/
inductive ExtractErr where
  | entryReadFailed (i : Nat)
  | unsafeName (i : Nat)
  | unsafePath (i : Nat)
  | symlinkEntry (i : Nat)
  | createDirFailed (i : Nat)
  | createParentFailed (i : Nat)
  | tmpCreateFailed (i : Nat)
  | writeFailed (i : Nat)
  | placeFailed (i : Nat)
deriving DecidableEq, Repr

/-- What processing one entry does to the filesystem: the file placed at
its final path (if any), the directory created (if any), the temp file
created (if any) and whether that temp file was removed again, the error
that aborts the loop (if any), and whether the entry was skipped by an
exclusion. -/
structure EntryEffect where
  placed : Option (List RComp)
  madeDir : Option (List RComp)
  tempCreated : Option (List RComp)
  tempRemoved : Bool
  error : Option ExtractErr
  skipped : Bool
deriving DecidableEq, Repr

/-- The file-entry tail of the loop body (src/extractor.rs lines
142-202): create the parent directory, create a probed temp file, write
the entry's bytes into it — on failure the temp file is NOT removed —
then place it via `atomic_rename_or_copy`, removing the temp file in both
arms of that match. -/
def processFile (dest : List RComp) (i : Nat) (e : ZipEntry) (p : RPath) :
    EntryEffect :=
  let outpath := rustJoin dest p
  if e.mkdirOk = false then
    ⟨none, none, none, false, some (ExtractErr.createParentFailed i), false⟩
  else
    let tmp := entryTmpPath outpath e.tmpIdx
    if e.tmpCreateOk = false then
      ⟨none, none, none, false, some (ExtractErr.tmpCreateFailed i), false⟩
    else if e.writeOk = false then
      ⟨none, none, some tmp, false, some (ExtractErr.writeFailed i), false⟩
    else if e.placeOk then
      ⟨some outpath, none, some tmp, true, none, false⟩
    else
      ⟨none, none, some tmp, true, some (ExtractErr.placeFailed i), false⟩

/-- The checks of the loop body once the entry has an enclosed name
(src/extractor.rs lines 92-202): `is_safe_path`, the symlink rejection,
the exclusion skip, then directory creation or the file tail. -/
def processSafe (dest : List RComp) (excl : List (List RComp)) (i : Nat)
    (e : ZipEntry) (p : RPath) : EntryEffect :=
  if is_safe_path p = false then
    ⟨none, none, none, false, some (ExtractErr.unsafePath i), false⟩
  else if isSymlinkMode e.unixMode then
    ⟨none, none, none, false, some (ExtractErr.symlinkEntry i), false⟩
  else if excl.any (fun pat => pat.isPrefixOf p.comps) then
    ⟨none, none, none, false, none, true⟩
  else if e.nameEndsSlash then
    if e.mkdirOk then ⟨none, some (rustJoin dest p), none, false, none, false⟩
    else ⟨none, none, none, false, some (ExtractErr.createDirFailed i), false⟩
  else
    processFile dest i e p

/-- The body of the per-entry loop of
`Extractor::extract_zip_safe_with_exclusions` (src/extractor.rs lines
73-203), in source order: read the entry, take its enclosed name, then
run the per-entry checks and writes. -/
def processEntry (dest : List RComp) (excl : List (List RComp)) (i : Nat)
    (e : ZipEntry) : EntryEffect :=
  match e.readOk, e.enclosedName with
  | false, _ =>
    ⟨none, none, none, false, some (ExtractErr.entryReadFailed i), false⟩
  | true, none =>
    ⟨none, none, none, false, some (ExtractErr.unsafeName i), false⟩
  | true, some p => processSafe dest excl i e p

/-- The files the extractor has placed and the temp files it has left
behind. -/
structure RunState where
  extracted : List (List RComp)
  leftoverTemps : List (List RComp)
deriving DecidableEq, Repr

/-- The temp files an entry effect leaves behind. -/
def tempLeftOf (eff : EntryEffect) : List (List RComp) :=
  match eff.tempCreated with
  | some t => if eff.tempRemoved then [] else [t]
  | none => []

/-- The entry loop (src/extractor.rs lines 73-203): entries are processed
in order, accumulating placed files; the first per-entry error aborts the
rest of the archive. -/
def extractGo (dest : List RComp) (excl : List (List RComp)) :
    Nat → List ZipEntry → RunState → RunState × Option ExtractErr
  | _, [], st => (st, none)
  | i, e :: rest, st =>
    let eff := processEntry dest excl i e
    let st2 : RunState :=
      ⟨st.extracted ++ eff.placed.toList,
        st.leftoverTemps ++ tempLeftOf eff⟩
    match eff.error with
    | some err => (st2, some err)
    | none => extractGo dest excl (i + 1) rest st2

/-- `Extractor::extract_zip_safe_with_exclusions` (src/extractor.rs
lines 31-210) over an already-opened archive: the final filesystem state
and, on failure, the aborting error; the extracted-files list returned on
success is the `extracted` field. -/
def extract_zip_safe_with_exclusions (dest : List RComp)
    (excl : List (List RComp)) (entries : List ZipEntry) :
    RunState × Option ExtractErr :=
  extractGo dest excl 0 entries ⟨[], []⟩

/-- An entry whose path is unsafe (absolute, `..`, drive or root, or a
name the zip crate rejects) or which is a symbolic link. -/
def badEntry (e : ZipEntry) : Bool :=
  (match e.enclosedName with
   | none => true
   | some p => !(is_safe_path p)) || isSymlinkMode e.unixMode

theorem is_safe_path_not_abs (p : RPath) (h : is_safe_path p = true) :
    p.absolute = false := by
  unfold is_safe_path at h
  cases ha : p.absolute
  · rfl
  · rw [ha] at h; simp at h

theorem bool_true_of_not_false (b : Bool) (h : ¬b = false) : b = true := by
  cases b
  · exact absurd rfl h
  · rfl

theorem bool_false_of_not_true (b : Bool) (h : ¬b = true) : b = false := by
  cases b
  · rfl
  · exact absurd rfl h

theorem processEntry_of_readFail (dest : List RComp)
    (excl : List (List RComp)) (i : Nat) (e : ZipEntry)
    (hr : e.readOk = false) :
    processEntry dest excl i e
      = ⟨none, none, none, false, some (ExtractErr.entryReadFailed i), false⟩ := by
  unfold processEntry
  rw [hr]

theorem processEntry_of_noName (dest : List RComp)
    (excl : List (List RComp)) (i : Nat) (e : ZipEntry)
    (hr : e.readOk = true) (hen : e.enclosedName = none) :
    processEntry dest excl i e
      = ⟨none, none, none, false, some (ExtractErr.unsafeName i), false⟩ := by
  unfold processEntry
  rw [hr, hen]

theorem processEntry_of_some (dest : List RComp)
    (excl : List (List RComp)) (i : Nat) (e : ZipEntry) (p : RPath)
    (hr : e.readOk = true) (hen : e.enclosedName = some p) :
    processEntry dest excl i e = processSafe dest excl i e p := by
  unfold processEntry
  rw [hr, hen]

theorem processEntry_bad (dest : List RComp) (excl : List (List RComp))
    (i : Nat) (e : ZipEntry) (h : badEntry e = true) :
    ∃ err, processEntry dest excl i e
      = ⟨none, none, none, false, some err, false⟩ := by
  unfold badEntry at h
  cases hr : e.readOk with
  | false => exact ⟨_, processEntry_of_readFail dest excl i e hr⟩
  | true =>
    cases hen : e.enclosedName with
    | none => exact ⟨_, processEntry_of_noName dest excl i e hr hen⟩
    | some p =>
      have hm : (match e.enclosedName with
          | none => true
          | some p => !(is_safe_path p)) = !(is_safe_path p) := by
        rw [hen]
      rw [hm] at h
      rw [processEntry_of_some dest excl i e p hr hen]
      by_cases hs : is_safe_path p = false
      · exact ⟨ExtractErr.unsafePath i, by unfold processSafe; rw [if_pos hs]⟩
      · have hsafe := bool_true_of_not_false _ hs
        have hsym : isSymlinkMode e.unixMode = true := by
          rw [hsafe] at h
          simpa using h
        refine ⟨ExtractErr.symlinkEntry i, ?_⟩
        unfold processSafe
        rw [if_neg hs, if_pos hsym]

theorem processFile_placed (dest : List RComp) (i : Nat) (e : ZipEntry)
    (p : RPath) (q : List RComp)
    (h : (processFile dest i e p).placed = some q) :
    e.writeOk = true ∧ q = rustJoin dest p := by
  simp only [processFile] at h
  by_cases h1 : e.mkdirOk = false
  · rw [if_pos h1] at h; simp at h
  · rw [if_neg h1] at h
    by_cases h2 : e.tmpCreateOk = false
    · rw [if_pos h2] at h; simp at h
    · rw [if_neg h2] at h
      by_cases h3 : e.writeOk = false
      · rw [if_pos h3] at h; simp at h
      · rw [if_neg h3] at h
        by_cases h4 : e.placeOk = true
        · rw [if_pos h4] at h
          simp only [Option.some.injEq] at h
          exact ⟨bool_true_of_not_false _ h3, h.symm⟩
        · rw [if_neg h4] at h; simp at h

theorem processSafe_placed (dest : List RComp) (excl : List (List RComp))
    (i : Nat) (e : ZipEntry) (p : RPath) (q : List RComp)
    (h : (processSafe dest excl i e p).placed = some q) :
    is_safe_path p = true
      ∧ (excl.any fun pat => pat.isPrefixOf p.comps) = false
      ∧ q = dest ++ p.comps := by
  simp only [processSafe] at h
  by_cases h1 : is_safe_path p = false
  · rw [if_pos h1] at h; simp at h
  · rw [if_neg h1] at h
    have hsafe := bool_true_of_not_false _ h1
    by_cases h2 : isSymlinkMode e.unixMode = true
    · rw [if_pos h2] at h; simp at h
    · rw [if_neg h2] at h
      by_cases h3 : (excl.any fun pat => pat.isPrefixOf p.comps) = true
      · rw [if_pos h3] at h; simp at h
      · rw [if_neg h3] at h
        by_cases h4 : e.nameEndsSlash = true
        · rw [if_pos h4] at h
          by_cases h5 : e.mkdirOk = true
          · rw [if_pos h5] at h; simp at h
          · rw [if_neg h5] at h; simp at h
        · rw [if_neg h4] at h
          obtain ⟨hw, hq⟩ := processFile_placed dest i e p q h
          refine ⟨hsafe, bool_false_of_not_true _ h3, ?_⟩
          rw [hq]
          unfold rustJoin
          rw [is_safe_path_not_abs p hsafe]
          simp

theorem processEntry_placed (dest : List RComp) (excl : List (List RComp))
    (i : Nat) (e : ZipEntry) (q : List RComp)
    (h : (processEntry dest excl i e).placed = some q) :
    ∃ p : RPath, e.enclosedName = some p ∧ is_safe_path p = true
      ∧ (excl.any fun pat => pat.isPrefixOf p.comps) = false
      ∧ q = dest ++ p.comps := by
  cases hr : e.readOk with
  | false => rw [processEntry_of_readFail dest excl i e hr] at h; simp at h
  | true =>
    cases hen : e.enclosedName with
    | none => rw [processEntry_of_noName dest excl i e hr hen] at h; simp at h
    | some p =>
      rw [processEntry_of_some dest excl i e p hr hen] at h
      obtain ⟨hsafe, hex, hq⟩ := processSafe_placed dest excl i e p q h
      exact ⟨p, rfl, hsafe, hex, hq⟩

theorem processEntry_skip (dest : List RComp) (excl : List (List RComp))
    (i : Nat) (e : ZipEntry) (p : RPath) (hr : e.readOk = true)
    (hen : e.enclosedName = some p) (hsafe : is_safe_path p = true)
    (hsym : isSymlinkMode e.unixMode = false)
    (hex : (excl.any fun pat => pat.isPrefixOf p.comps) = true) :
    processEntry dest excl i e = ⟨none, none, none, false, none, true⟩ := by
  rw [processEntry_of_some dest excl i e p hr hen]
  unfold processSafe
  rw [if_neg (by rw [hsafe]; simp), if_neg (by rw [hsym]; simp), if_pos hex]

theorem processFile_temp_iff (dest : List RComp) (i : Nat) (e : ZipEntry)
    (p : RPath) (t : List RComp)
    (h : (processFile dest i e p).tempCreated = some t) :
    ((processFile dest i e p).tempRemoved = true ↔ e.writeOk = true) := by
  simp only [processFile] at h ⊢
  by_cases h1 : e.mkdirOk = false
  · rw [if_pos h1] at h; simp at h
  · rw [if_neg h1] at h ⊢
    by_cases h2 : e.tmpCreateOk = false
    · rw [if_pos h2] at h; simp at h
    · rw [if_neg h2] at h ⊢
      by_cases h3 : e.writeOk = false
      · rw [if_pos h3] at h ⊢
        rw [h3]
      · rw [if_neg h3] at h ⊢
        have hw := bool_true_of_not_false _ h3
        by_cases h4 : e.placeOk = true
        · rw [if_pos h4] at h ⊢; simp [hw]
        · rw [if_neg h4] at h ⊢; simp [hw]

theorem processSafe_temp_iff (dest : List RComp) (excl : List (List RComp))
    (i : Nat) (e : ZipEntry) (p : RPath) (t : List RComp)
    (h : (processSafe dest excl i e p).tempCreated = some t) :
    ((processSafe dest excl i e p).tempRemoved = true ↔ e.writeOk = true) := by
  simp only [processSafe] at h ⊢
  by_cases h1 : is_safe_path p = false
  · rw [if_pos h1] at h; simp at h
  · rw [if_neg h1] at h ⊢
    by_cases h2 : isSymlinkMode e.unixMode = true
    · rw [if_pos h2] at h; simp at h
    · rw [if_neg h2] at h ⊢
      by_cases h3 : (excl.any fun pat => pat.isPrefixOf p.comps) = true
      · rw [if_pos h3] at h; simp at h
      · rw [if_neg h3] at h ⊢
        by_cases h4 : e.nameEndsSlash = true
        · rw [if_pos h4] at h
          by_cases h5 : e.mkdirOk = true
          · rw [if_pos h5] at h; simp at h
          · rw [if_neg h5] at h; simp at h
        · rw [if_neg h4] at h ⊢
          exact processFile_temp_iff dest i e p t h

theorem processEntry_temp_iff (dest : List RComp) (excl : List (List RComp))
    (i : Nat) (e : ZipEntry) (t : List RComp)
    (h : (processEntry dest excl i e).tempCreated = some t) :
    ((processEntry dest excl i e).tempRemoved = true ↔ e.writeOk = true) := by
  cases hr : e.readOk with
  | false => rw [processEntry_of_readFail dest excl i e hr] at h; simp at h
  | true =>
    cases hen : e.enclosedName with
    | none => rw [processEntry_of_noName dest excl i e hr hen] at h; simp at h
    | some p =>
      rw [processEntry_of_some dest excl i e p hr hen] at h ⊢
      exact processSafe_temp_iff dest excl i e p t h

theorem processFile_tempLeft (dest : List RComp) (i : Nat) (e : ZipEntry)
    (p : RPath) (hw : e.writeOk = true) :
    tempLeftOf (processFile dest i e p) = [] := by
  simp only [processFile]
  by_cases h1 : e.mkdirOk = false
  · rw [if_pos h1]; rfl
  · rw [if_neg h1]
    by_cases h2 : e.tmpCreateOk = false
    · rw [if_pos h2]; rfl
    · rw [if_neg h2]
      have h3 : ¬e.writeOk = false := by rw [hw]; simp
      rw [if_neg h3]
      by_cases h4 : e.placeOk = true
      · rw [if_pos h4]; rfl
      · rw [if_neg h4]; rfl

theorem processSafe_tempLeft (dest : List RComp) (excl : List (List RComp))
    (i : Nat) (e : ZipEntry) (p : RPath) (hw : e.writeOk = true) :
    tempLeftOf (processSafe dest excl i e p) = [] := by
  simp only [processSafe]
  by_cases h1 : is_safe_path p = false
  · rw [if_pos h1]; rfl
  · rw [if_neg h1]
    by_cases h2 : isSymlinkMode e.unixMode = true
    · rw [if_pos h2]; rfl
    · rw [if_neg h2]
      by_cases h3 : (excl.any fun pat => pat.isPrefixOf p.comps) = true
      · rw [if_pos h3]; rfl
      · rw [if_neg h3]
        by_cases h4 : e.nameEndsSlash = true
        · rw [if_pos h4]
          by_cases h5 : e.mkdirOk = true
          · rw [if_pos h5]; rfl
          · rw [if_neg h5]; rfl
        · rw [if_neg h4]
          exact processFile_tempLeft dest i e p hw

theorem tempLeftOf_of_writeOk (dest : List RComp) (excl : List (List RComp))
    (i : Nat) (e : ZipEntry) (hw : e.writeOk = true) :
    tempLeftOf (processEntry dest excl i e) = [] := by
  cases hr : e.readOk with
  | false => rw [processEntry_of_readFail dest excl i e hr]; rfl
  | true =>
    cases hen : e.enclosedName with
    | none => rw [processEntry_of_noName dest excl i e hr hen]; rfl
    | some p =>
      rw [processEntry_of_some dest excl i e p hr hen]
      exact processSafe_tempLeft dest excl i e p hw

theorem isPrefixOf_append_same (d a b : List RComp) :
    ((d ++ a).isPrefixOf (d ++ b)) = a.isPrefixOf b := by
  induction d with
  | nil => rfl
  | cons c cs ih => simp [List.isPrefixOf, ih]

theorem isPrefixOf_append_self (d b : List RComp) :
    d.isPrefixOf (d ++ b) = true := by
  have h := isPrefixOf_append_same d [] b
  rw [List.append_nil] at h
  rw [h]
  cases b <;> rfl

theorem extractGo_cons (dest : List RComp) (excl : List (List RComp))
    (i : Nat) (e : ZipEntry) (rest : List ZipEntry) (st : RunState) :
    extractGo dest excl i (e :: rest) st
      = (match (processEntry dest excl i e).error with
        | some err =>
          (⟨st.extracted ++ (processEntry dest excl i e).placed.toList,
            st.leftoverTemps ++ tempLeftOf (processEntry dest excl i e)⟩,
            some err)
        | none =>
          extractGo dest excl (i + 1) rest
            ⟨st.extracted ++ (processEntry dest excl i e).placed.toList,
              st.leftoverTemps ++ tempLeftOf (processEntry dest excl i e)⟩) := by
  rfl

theorem extractGo_stops (dest : List RComp) (excl : List (List RComp)) :
    ∀ (l1 l2 : List ZipEntry) (i : Nat) (st : RunState),
      (extractGo dest excl i l1 st).2.isSome = true →
      extractGo dest excl i (l1 ++ l2) st = extractGo dest excl i l1 st := by
  intro l1
  induction l1 with
  | nil => intro l2 i st h; simp [extractGo] at h
  | cons e rest ih =>
    intro l2 i st h
    rw [List.cons_append]
    rw [extractGo_cons] at h
    cases herr : (processEntry dest excl i e).error with
    | some err =>
      rw [extractGo_cons, extractGo_cons dest excl i e rest st]
      simp only [herr]
    | none =>
      simp only [herr] at h
      rw [extractGo_cons, extractGo_cons dest excl i e rest st]
      simp only [herr]
      exact ih l2 (i + 1) _ h

theorem extractGo_extends (dest : List RComp) (excl : List (List RComp)) :
    ∀ (l1 l2 : List ZipEntry) (i : Nat) (st : RunState),
      (extractGo dest excl i l1 st).2 = none →
      extractGo dest excl i (l1 ++ l2) st
        = extractGo dest excl (i + l1.length) l2
            (extractGo dest excl i l1 st).1 := by
  intro l1
  induction l1 with
  | nil => intro l2 i st h; simp [extractGo]
  | cons e rest ih =>
    intro l2 i st h
    rw [List.cons_append]
    rw [extractGo_cons] at h
    cases herr : (processEntry dest excl i e).error with
    | some err => simp [herr] at h
    | none =>
      simp only [herr] at h
      rw [extractGo_cons]
      simp only [herr]
      rw [ih l2 (i + 1) _ h]
      rw [extractGo_cons dest excl i e rest st]
      simp only [herr, List.length_cons]
      rw [show i + 1 + rest.length = i + (rest.length + 1) from by omega]

theorem extractGo_extracted_sound (dest : List RComp)
    (excl : List (List RComp)) :
    ∀ (l : List ZipEntry) (i : Nat) (st : RunState) (q : List RComp),
      q ∈ (extractGo dest excl i l st).1.extracted →
      q ∈ st.extracted
      ∨ ∃ (en : ZipEntry) (p : RPath), en ∈ l ∧ en.enclosedName = some p
          ∧ is_safe_path p = true
          ∧ (excl.any fun pat => pat.isPrefixOf p.comps) = false
          ∧ q = dest ++ p.comps := by
  intro l
  induction l with
  | nil => intro i st q h; left; simpa [extractGo] using h
  | cons e rest ih =>
    intro i st q h
    have hstep : ∀ q2 : List RComp,
        q2 ∈ st.extracted ++ (processEntry dest excl i e).placed.toList →
        q2 ∈ st.extracted
        ∨ ∃ (en : ZipEntry) (p : RPath), en ∈ e :: rest
            ∧ en.enclosedName = some p ∧ is_safe_path p = true
            ∧ (excl.any fun pat => pat.isPrefixOf p.comps) = false
            ∧ q2 = dest ++ p.comps := by
      intro q2 h2
      rcases List.mem_append.1 h2 with h3 | h3
      · left; exact h3
      · right
        have hpl : (processEntry dest excl i e).placed = some q2 := by
          cases hp : (processEntry dest excl i e).placed with
          | none => rw [hp] at h3; simp [Option.toList] at h3
          | some r =>
            rw [hp] at h3
            simp [Option.toList] at h3
            rw [h3]
        obtain ⟨p, hp1, hp2, hp3, hp4⟩ :=
          processEntry_placed dest excl i e q2 hpl
        exact ⟨e, p, List.mem_cons_self e rest, hp1, hp2, hp3, hp4⟩
    unfold extractGo at h
    cases herr : (processEntry dest excl i e).error with
    | some err =>
      simp only [herr] at h
      exact hstep q h
    | none =>
      simp only [herr] at h
      rcases ih (i + 1) _ q h with h2 | h2
      · exact hstep q h2
      · right
        obtain ⟨en, p, he, hrest⟩ := h2
        exact ⟨en, p, List.mem_cons_of_mem e he, hrest⟩

theorem extractGo_no_leftovers (dest : List RComp)
    (excl : List (List RComp)) :
    ∀ (l : List ZipEntry) (i : Nat) (st : RunState),
      (∀ e2 ∈ l, e2.writeOk = true) →
      (extractGo dest excl i l st).1.leftoverTemps = st.leftoverTemps := by
  intro l
  induction l with
  | nil => intro i st _; simp [extractGo]
  | cons e rest ih =>
    intro i st hall
    have hl : tempLeftOf (processEntry dest excl i e) = [] :=
      tempLeftOf_of_writeOk dest excl i e (hall e (List.mem_cons_self e rest))
    unfold extractGo
    cases herr : (processEntry dest excl i e).error with
    | some err => simp only [herr, hl]; simp
    | none =>
      simp only [herr, hl]
      rw [ih (i + 1) _ (fun e2 he2 => hall e2 (List.mem_cons_of_mem e he2))]
      simp

/-- Claim C1: an entry whose path is absolute or has a parent-directory,
drive or root component (or an entry the zip crate rejects outright), or
which is a symbolic link, makes the whole call fail: the run over
`l1 ++ e :: l2` returns an error and its filesystem state equals that of
the run over `l1` alone — nothing is written for the bad entry or any
later entry, with no skip-and-continue.  A safe, non-symlink entry under
an excluded pattern is skipped without error and without any write, and
no placed file ever lies under `dest ++ pattern` for an excluded
pattern. -/
theorem extract_rejects_unsafe (dest : List RComp)
    (excl : List (List RComp)) (l1 : List ZipEntry) (e : ZipEntry)
    (l2 : List ZipEntry) (hbad : badEntry e = true) :
    (extract_zip_safe_with_exclusions dest excl (l1 ++ e :: l2)).2.isSome
        = true
    ∧ (extract_zip_safe_with_exclusions dest excl (l1 ++ e :: l2)).1
        = (extract_zip_safe_with_exclusions dest excl l1).1
    ∧ (∀ (i : Nat) (e2 : ZipEntry) (p : RPath), e2.readOk = true →
        e2.enclosedName = some p → is_safe_path p = true →
        isSymlinkMode e2.unixMode = false →
        (excl.any fun pat => pat.isPrefixOf p.comps) = true →
        processEntry dest excl i e2 = ⟨none, none, none, false, none, true⟩)
    ∧ (∀ q, q ∈ (extract_zip_safe_with_exclusions dest excl
          (l1 ++ e :: l2)).1.extracted →
        ∀ pat ∈ excl, (dest ++ pat).isPrefixOf q = false) := by
  have hmain :
      (extract_zip_safe_with_exclusions dest excl (l1 ++ e :: l2)).2.isSome
          = true
      ∧ (extract_zip_safe_with_exclusions dest excl (l1 ++ e :: l2)).1
          = (extract_zip_safe_with_exclusions dest excl l1).1 := by
    unfold extract_zip_safe_with_exclusions
    cases hres : (extractGo dest excl 0 l1 ⟨[], []⟩).2 with
    | some err0 =>
      rw [extractGo_stops dest excl l1 (e :: l2) 0 ⟨[], []⟩
        (by rw [hres]; rfl)]
      exact ⟨by rw [hres]; rfl, rfl⟩
    | none =>
      obtain ⟨err, herr⟩ := processEntry_bad dest excl (0 + l1.length) e hbad
      rw [extractGo_extends dest excl l1 (e :: l2) 0 ⟨[], []⟩ hres]
      rw [extractGo_cons]
      simp only [herr]
      constructor
      · rfl
      · simp [tempLeftOf]
  refine ⟨hmain.1, hmain.2, fun i e2 p h1 h2 h3 h4 h5 =>
    processEntry_skip dest excl i e2 p h1 h2 h3 h4 h5, fun q hq pat hpat => ?_⟩
  rcases extractGo_extracted_sound dest excl (l1 ++ e :: l2) 0 ⟨[], []⟩ q hq
    with h | h
  · simp at h
  · obtain ⟨en, p, -, -, -, hex, hq2⟩ := h
    rw [hq2, isPrefixOf_append_same]
    have := List.any_eq_false.1 hex pat hpat
    exact bool_false_of_not_true _ this

/-- The destination directory used in the concrete extraction runs. -/
def destG : List RComp := [RComp.normal "game".data]

/-- A well-behaved file entry `a.txt`. -/
def goodEntryA : ZipEntry :=
  ⟨true, some ⟨false, [RComp.normal "a.txt".data]⟩, none, false, true, 0,
    true, true, true⟩

/-- The entry `a.txt` whose byte-write (`io::copy`) fails. -/
def writeFailEntry : ZipEntry :=
  ⟨true, some ⟨false, [RComp.normal "a.txt".data]⟩, none, false, true, 0,
    true, false, true⟩

/-- An entry with a parent-directory traversal in its path. -/
def badEntryB : ZipEntry :=
  ⟨true, some ⟨false, [RComp.parentDir, RComp.normal "evil.txt".data]⟩,
    none, false, true, 0, true, true, true⟩

/-- A concrete exclusion list: the `BepInEx/plugins` subtree. -/
def exclW : List (List RComp) :=
  [[RComp.normal "BepInEx".data, RComp.normal "plugins".data]]

/-- Witness for C1 at a concrete input: a single `../evil.txt` entry makes
the call fail and leaves the destination exactly as an empty archive
would. -/
theorem extract_rejects_unsafe_witness :
    (extract_zip_safe_with_exclusions destG exclW
        ([] ++ badEntryB :: [])).2.isSome = true
    ∧ (extract_zip_safe_with_exclusions destG exclW ([] ++ badEntryB :: [])).1
        = (extract_zip_safe_with_exclusions destG exclW []).1 := by
  have h := extract_rejects_unsafe destG exclW [] badEntryB [] (by decide)
  exact ⟨h.1, h.2.1⟩

/-- Counterexample to C9 as stated: when writing the entry's bytes fails,
the call errors but the probed temp file `game/a.tmp` is left behind —
the removal runs only in the two arms of the placement match, not on the
byte-write failure path. -/
theorem extract_temp_left_on_write_failure :
    (extract_zip_safe_with_exclusions destG [] [writeFailEntry]).2.isSome
        = true
    ∧ (extract_zip_safe_with_exclusions destG []
        [writeFailEntry]).1.leftoverTemps
        = [[RComp.normal "game".data, RComp.normal "a.tmp".data]] := by
  exact ⟨by decide, by decide⟩

/-- Claim C9, amended: for every file entry that creates a temp file, the
temp file is removed again exactly when writing the entry's bytes
succeeded — it is removed both after a successful atomic placement and
after a failed one, but left behind when the byte-write itself fails;
consequently a run in which every entry's byte-write succeeds leaves no
temp file behind on any outcome. -/
theorem extract_temp_cleanup (dest : List RComp) (excl : List (List RComp))
    (i : Nat) (e : ZipEntry) (t : List RComp) (entries : List ZipEntry) :
    ((processEntry dest excl i e).tempCreated = some t →
      ((processEntry dest excl i e).tempRemoved = true ↔ e.writeOk = true))
    ∧ ((∀ e2 ∈ entries, e2.writeOk = true) →
      (extract_zip_safe_with_exclusions dest excl
        entries).1.leftoverTemps = []) := by
  constructor
  · exact processEntry_temp_iff dest excl i e t
  · intro hall
    unfold extract_zip_safe_with_exclusions
    rw [extractGo_no_leftovers dest excl entries 0 ⟨[], []⟩ hall]

/-- Witness for C9 (amended) at a concrete input: the well-behaved entry
has its temp file removed, and a run of it leaves no temp files. -/
theorem extract_temp_cleanup_witness :
    ((processEntry destG [] 0 goodEntryA).tempRemoved = true
      ↔ goodEntryA.writeOk = true)
    ∧ (extract_zip_safe_with_exclusions destG []
        [goodEntryA]).1.leftoverTemps = [] := by
  have h := extract_temp_cleanup destG [] 0 goodEntryA
    [RComp.normal "game".data, RComp.normal "a.tmp".data] [goodEntryA]
  exact ⟨h.1 (by decide), h.2 (by decide)⟩

/-- Claim C10: every file placed by a successful call comes from some
entry's safe relative path joined onto the destination directory, so the
destination directory is a prefix of every returned path. -/
theorem extract_outputs_under_dest (dest : List RComp)
    (excl : List (List RComp)) (entries : List ZipEntry)
    (hok : (extract_zip_safe_with_exclusions dest excl entries).2 = none) :
    ∀ q ∈ (extract_zip_safe_with_exclusions dest excl entries).1.extracted,
      ∃ (en : ZipEntry) (p : RPath), en ∈ entries
        ∧ en.enclosedName = some p ∧ is_safe_path p = true
        ∧ q = dest ++ p.comps ∧ dest.isPrefixOf q = true := by
  intro q hq
  rcases extractGo_extracted_sound dest excl entries 0 ⟨[], []⟩ q hq
    with h | h
  · simp at h
  · obtain ⟨en, p, h1, h2, h3, -, h5⟩ := h
    exact ⟨en, p, h1, h2, h3, h5, by
      rw [h5]; exact isPrefixOf_append_self dest p.comps⟩

/-- Witness for C10 at a concrete input: extracting `a.txt` into `game/`
returns `game/a.txt`, which has the destination as a prefix. -/
theorem extract_outputs_under_dest_witness :
    ∃ (en : ZipEntry) (p : RPath), en ∈ [goodEntryA]
      ∧ en.enclosedName = some p ∧ is_safe_path p = true
      ∧ [RComp.normal "game".data, RComp.normal "a.txt".data]
          = destG ++ p.comps
      ∧ destG.isPrefixOf
          [RComp.normal "game".data, RComp.normal "a.txt".data] = true :=
  extract_outputs_under_dest destG [] [goodEntryA] (by decide)
    [RComp.normal "game".data, RComp.normal "a.txt".data] (by decide)

end MetaMystia
